import Mathlib

/-!
Shallow embedding of the GPT2-style BPE tokenizer backend
(`tokenizer_backend/src`): token model, vocabulary, merge table,
BPE merge engine with cache, truncation, encoding, and the
consolidated-token iterator.  Rust `String`/`&str` values are modelled
as `List Char`, `usize`/`u32` (`OffsetSize`) as `Nat`, `i64` ids as
`Int`, `HashMap` as association lists (first match wins; Rust maps have
unique keys), and fallible code as `Option`/`Except`.
-/

set_option autoImplicit false

namespace Tok

/-- Rust `String` / `&str`, at unicode-scalar granularity. -/
abbrev Str := List Char

/-- `pub type OffsetSize = u32` (offsets fit easily below `2^32` here,
so overflow is immaterial and `Nat` is used). -/
abbrev OffsetSize := Nat

/-- `struct Offset { begin, end }` from `base_tokenizer.rs`.
`end` is a keyword in Lean, hence `end_`. -/
structure Offset where
  begin_ : OffsetSize
  end_ : OffsetSize
  deriving Repr, DecidableEq

/-- `enum Mask` from `base_tokenizer.rs`. -/
inductive Mask where
  | none
  | whitespace
  | punctuation
  | cjk
  | special
  | begin
  | continuation
  | unfinished
  | unknown
  deriving Repr, DecidableEq

/-- Owned `Token` from `base_tokenizer.rs` (also stands in for
`TokenRef`, which holds the same data borrowed). -/
structure Token where
  text : Str
  offset : Offset
  reference_offsets : List OffsetSize
  mask : Mask
  deriving Repr, DecidableEq

/-- `TokenRef::new`: offset spans `0..offsets.len()`, mask `None`. -/
def TokenRef.new (text : Str) (offsets : List OffsetSize) : Token :=
  { text := text
    offset := { begin_ := 0, end_ := offsets.length }
    reference_offsets := offsets
    mask := Mask.none }

/-- First-match association-list lookup, the model of `HashMap::get`
(Rust hash maps have unique keys, so first match is exact match). -/
def assoc {α β : Type} [DecidableEq α] (k : α) : List (α × β) → Option β
  | [] => none
  | (k', v) :: rest => if k = k' then some v else assoc k rest

/-- `BpePairVocab` from `bpe_vocab.rs`: dictionary of merge pairs with
their rank (lower rank merges first). -/
structure BpePairVocab where
  values : List ((Str × Str) × Nat)
  deriving Repr

/-- `BpePairVocab::byte_pair_to_id`: exact lookup of an ordered pair. -/
def byte_pair_to_id (v : BpePairVocab) (p : Str × Str) : Option Nat :=
  assoc p v.values

/-- `get_pairs` (`tokenization_utils.rs:431`): the adjacent pairs of a
symbol list, `None` for lists of length 0 or 1.  The Rust function
collects them into a `HashSet`; the list of pairs in order is kept
here, which suffices because only rank-minimisation consumes it. -/
def get_pairs (token : List Str) : Option (List (Str × Str)) :=
  match token with
  | [] => none
  | [_] => none
  | _ => some (token.zip token.tail)

/-- Rank of a pair for the `min_by_key` selection in
`group_common_pairs`: pairs absent from the table count as
`i64::MAX` (modelled as `none`, ordered above every `some`). -/
def pairRank (ranks : BpePairVocab) (p : Str × Str) : Option Nat :=
  byte_pair_to_id ranks p

/-- `some r < none` ordering used for `min_by_key` with absent pairs
treated as infinite rank. -/
def rankLt : Option Nat → Option Nat → Prop
  | some a, some b => a < b
  | some _, none => True
  | none, _ => False

instance : DecidableRel rankLt := fun a b => by
  cases a <;> cases b <;> simp [rankLt] <;> infer_instance

/-- `iter().min_by_key(...)`: the first element of the list attaining
the minimal key, keys ordered by `rankLt` (`none` = infinite).
(`HashSet` iteration order is unspecified in Rust; ranks of distinct
pairs are distinct for tables built by `BpePairVocab::from_cache`, so
when the minimum is an in-table rank the choice is determined.  This
embedding fixes the leftmost minimiser.) -/
def minByKey {α : Type} (key : α → Option Nat) : List α → Option α
  | [] => none
  | p :: rest =>
    match minByKey key rest with
    | none => some p
    | some q => if rankLt (key q) (key p) then some q else some p

/-- The inner `while i < tokens.len()` loop of `group_common_pairs`
(`tokenization_utils.rs:461-486`): replace every non-overlapping
left-to-right adjacent occurrence of `(b1, b2)` by the concatenation.
(The Rust loop skips ahead to the next occurrence of `b1`, copying the
elements in between unchanged, which is the element-wise recursion
below.) -/
def mergePair (b1 b2 : Str) : List Str → List Str
  | [] => []
  | [x] => if x = b1 then [b1] else [x]
  | x :: y :: rest =>
    if x = b1 then
      if y = b2 then (b1 ++ b2) :: mergePair b1 b2 rest
      else b1 :: mergePair b1 b2 (y :: rest)
    else x :: mergePair b1 b2 (y :: rest)

/-- `group_common_pairs` (`tokenization_utils.rs:446`): pick the
lowest-ranked adjacent pair; if it is not in the table (or there are
fewer than two symbols) stop; otherwise merge all its non-overlapping
occurrences, stopping if a single symbol remains. -/
def group_common_pairs (tokens : List Str) (bpe_ranks : BpePairVocab) :
    List Str × Bool :=
  match get_pairs tokens with
  | none => (tokens, true)
  | some pairs =>
    match minByKey (pairRank bpe_ranks) pairs with
    | none => (tokens, true)
    | some bigram =>
      if (byte_pair_to_id bpe_ranks bigram).isNone then (tokens, true)
      else
        let temp := mergePair bigram.1 bigram.2 tokens
        if temp.length = 1 then (temp, true) else (temp, false)

/-- `mergePair` never lengthens the symbol list. -/
theorem mergePair_length_le (b1 b2 : Str) :
    ∀ l : List Str, (mergePair b1 b2 l).length ≤ l.length
  | [] => by simp [mergePair]
  | [x] => by by_cases h : x = b1 <;> simp [mergePair, h]
  | x :: y :: rest => by
    by_cases h1 : x = b1
    · by_cases h2 : y = b2
      · have := mergePair_length_le b1 b2 rest
        simp only [mergePair, if_pos h1, if_pos h2, List.length_cons]
        omega
      · have := mergePair_length_le b1 b2 (y :: rest)
        simp only [mergePair, if_pos h1, if_neg h2, List.length_cons]
        simp only [List.length_cons] at this
        omega
    · have := mergePair_length_le b1 b2 (y :: rest)
      simp only [mergePair, if_neg h1, List.length_cons]
      simp only [List.length_cons] at this
      omega

/-- If `(b1, b2)` occurs adjacently, `mergePair` strictly shortens. -/
theorem mergePair_length_lt (b1 b2 : Str) :
    ∀ l : List Str, (b1, b2) ∈ l.zip l.tail →
      (mergePair b1 b2 l).length < l.length
  | [], h => by simp at h
  | [x], h => by simp at h
  | x :: y :: rest, hmem => by
    have hsplit : (b1, b2) = (x, y) ∨ (b1, b2) ∈ (y :: rest).zip rest := by
      simpa using hmem
    by_cases h1 : x = b1
    · by_cases h2 : y = b2
      · have := mergePair_length_le b1 b2 rest
        simp only [mergePair, if_pos h1, if_pos h2, List.length_cons]
        omega
      · have htail : (b1, b2) ∈ (y :: rest).zip rest := by
          rcases hsplit with h | h
          · exact absurd (congrArg Prod.snd h) (by simpa using fun hy => h2 hy.symm)
          · exact h
        have := mergePair_length_lt b1 b2 (y :: rest) (by simpa using htail)
        simp only [mergePair, if_pos h1, if_neg h2, List.length_cons]
        simp only [List.length_cons] at this
        omega
    · have htail : (b1, b2) ∈ (y :: rest).zip rest := by
        rcases hsplit with h | h
        · exact absurd (congrArg Prod.fst h) (by simpa using fun hx => h1 hx.symm)
        · exact h
      have := mergePair_length_lt b1 b2 (y :: rest) (by simpa using htail)
      simp only [mergePair, if_neg h1, List.length_cons]
      simp only [List.length_cons] at this
      omega

/-- The selected minimiser is an element of the list. -/
theorem minByKey_mem {α : Type} (key : α → Option Nat) :
    ∀ l : List α, ∀ q : α, minByKey key l = some q → q ∈ l
  | [], q => by simp [minByKey]
  | p :: rest, q => by
    simp only [minByKey]
    cases hrec : minByKey key rest with
    | none => intro h; simp at h; simp [h]
    | some q0 =>
      by_cases hlt : rankLt (key q0) (key p)
      · simp only [if_pos hlt]
        intro h
        have := minByKey_mem key rest q0 hrec
        simp at h
        subst h
        exact List.mem_cons_of_mem _ this
      · simp only [if_neg hlt]
        intro h
        simp at h
        simp [h]

/-- `rankLt` is irreflexive. -/
theorem rankLt_irrefl (a : Option Nat) : ¬ rankLt a a := by
  cases a <;> simp [rankLt]

/-- `rankLt` is asymmetric. -/
theorem rankLt_asymm (a b : Option Nat) (h : rankLt a b) : ¬ rankLt b a := by
  cases a <;> cases b <;> simp_all [rankLt] <;> omega

/-- `minByKey` succeeds on every non-empty list (forward declaration
order: used by `minByKey_min`). -/
theorem minByKey_isSome' {α : Type} (key : α → Option Nat) (l : List α)
    (h : l ≠ []) : (minByKey key l).isSome := by
  cases l with
  | nil => exact absurd rfl h
  | cons p rest =>
    simp only [minByKey]
    cases minByKey key rest with
    | none => rfl
    | some q => by_cases hlt : rankLt (key q) (key p) <;> simp [hlt]

/-- No element of the list has a strictly smaller key than the
selected minimiser. -/
theorem minByKey_min {α : Type} (key : α → Option Nat) :
    ∀ l : List α, ∀ q : α, minByKey key l = some q →
      ∀ p ∈ l, ¬ rankLt (key p) (key q)
  | [], q => by simp [minByKey]
  | p :: rest, q => by
    intro hmin r hr
    rcases hrec : minByKey key rest with _ | q0
    · have hrest : rest = [] := by
        cases rest with
        | nil => rfl
        | cons a as =>
          have := minByKey_isSome' key (a :: as) (by simp)
          rw [hrec] at this
          simp at this
      subst hrest
      simp [minByKey] at hmin
      subst hmin
      simp at hr
      subst hr
      exact rankLt_irrefl _
    · have hq0 := minByKey_min key rest q0 hrec
      simp only [minByKey, hrec] at hmin
      by_cases hlt : rankLt (key q0) (key p)
      · rw [if_pos hlt] at hmin
        simp at hmin
        subst hmin
        rcases List.mem_cons.mp hr with h | h
        · subst h
          exact rankLt_asymm _ _ hlt
        · exact hq0 r h
      · rw [if_neg hlt] at hmin
        simp at hmin
        subst hmin
        rcases List.mem_cons.mp hr with h | h
        · subst h
          exact rankLt_irrefl _
        · intro hcon
          have hnr := hq0 r h
          cases kr : key r <;> cases kp : key p <;> cases kq0 : key q0 <;>
            simp_all [rankLt] <;> omega

/-- `minByKey` succeeds on every non-empty list. -/
theorem minByKey_isSome {α : Type} (key : α → Option Nat) (l : List α)
    (h : l ≠ []) : (minByKey key l).isSome := by
  cases l with
  | nil => exact absurd rfl h
  | cons p rest =>
    simp only [minByKey]
    cases minByKey key rest with
    | none => rfl
    | some q => by_cases hlt : rankLt (key q) (key p) <;> simp [hlt]

/-- If the selected minimiser has an in-table key, selecting over the
eligible (in-table) sublist picks the same element. -/
theorem minByKey_filter {α : Type} (key : α → Option Nat) :
    ∀ l : List α, ∀ q : α, minByKey key l = some q → (key q).isSome →
      minByKey key (l.filter fun p => (key p).isSome) = some q
  | [], q => by simp [minByKey]
  | p :: rest, q => by
    intro hmin hsome
    rcases hkp : key p with _ | rp
    · -- head ineligible: it cannot be the minimiser, filter drops it
      rcases hrec : minByKey key rest with _ | q0
      · simp only [minByKey, hrec] at hmin
        simp at hmin
        subst hmin
        simp [hkp] at hsome
      · rcases hkq0 : key q0 with _ | r0
        · simp only [minByKey, hrec] at hmin
          rw [hkq0, hkp] at hmin
          simp [rankLt] at hmin
          subst hmin
          simp [hkp] at hsome
        · simp only [minByKey, hrec] at hmin
          rw [hkq0, hkp] at hmin
          simp [rankLt] at hmin
          subst hmin
          have hIH := minByKey_filter key rest q0 hrec (by simp [hkq0])
          have hfcons : List.filter (fun r => (key r).isSome) (p :: rest)
              = List.filter (fun r => (key r).isSome) rest := by
            simp [hkp]
          rw [hfcons]
          exact hIH
    · -- head eligible: filter keeps it
      rcases hrec : minByKey key rest with _ | q0
      · -- rest selects nothing, hence rest = []
        cases rest with
        | cons a as =>
          have := minByKey_isSome' key (a :: as) (by simp)
          rw [hrec] at this
          simp at this
        | nil =>
          simp only [minByKey, hrec] at hmin
          simp at hmin
          subst hmin
          simp [minByKey, hkp]
      · rcases hkq0 : key q0 with _ | r0
        · -- rest's minimiser ineligible: every key in rest is none
          have hall : ∀ r ∈ rest, key r = none := by
            intro r hr
            have := minByKey_min key rest q0 hrec r hr
            cases hkr : key r
            · rfl
            · rw [hkr, hkq0] at this; simp [rankLt] at this
          have hfilter : rest.filter (fun r => (key r).isSome) = [] := by
            apply List.filter_eq_nil_iff.mpr
            intro r hr
            simp [hall r hr]
          simp only [minByKey, hrec] at hmin
          rw [hkq0, hkp] at hmin
          simp [rankLt] at hmin
          subst hmin
          have hfcons : List.filter (fun r => (key r).isSome) (p :: rest)
              = p :: List.filter (fun r => (key r).isSome) rest := by
            simp [hkp]
          rw [hfcons, hfilter]
          simp [minByKey]
        · -- rest's minimiser eligible: recurse
          have hrec2 := minByKey_filter key rest q0 hrec (by simp [hkq0])
          simp only [minByKey, hrec] at hmin
          have hfcons : List.filter (fun r => (key r).isSome) (p :: rest)
              = p :: List.filter (fun r => (key r).isSome) rest := by
            simp [hkp]
          rw [hfcons]
          simp only [minByKey, hrec2]
          exact hmin

/-- `group_common_pairs` either signals completion or strictly
shortens the symbol list. -/
theorem group_common_pairs_shrinks (tokens : List Str)
    (bpe_ranks : BpePairVocab) :
    (group_common_pairs tokens bpe_ranks).2 = true ∨
      (group_common_pairs tokens bpe_ranks).1.length < tokens.length := by
  rcases hp : get_pairs tokens with _ | pairs
  · left; simp [group_common_pairs, hp]
  · rcases hmin : minByKey (pairRank bpe_ranks) pairs with _ | bigram
    · left; simp [group_common_pairs, hp, hmin]
    · by_cases hnone : (byte_pair_to_id bpe_ranks bigram).isNone
      · left; simp [group_common_pairs, hp, hmin, hnone]
      · have hmem : bigram ∈ tokens.zip tokens.tail := by
          have := minByKey_mem (pairRank bpe_ranks) pairs bigram hmin
          unfold get_pairs at hp
          rcases tokens with _ | ⟨x, _ | ⟨y, rest⟩⟩ <;> simp_all
        have hlt := mergePair_length_lt bigram.1 bigram.2 tokens (by
          simpa using hmem)
        by_cases hone : (mergePair bigram.1 bigram.2 tokens).length = 1
        · left; simp [group_common_pairs, hp, hmin, hnone, hone]
        · right
          simpa [group_common_pairs, hp, hmin, hnone, hone] using hlt

/-- The `loop { output = group_common_pairs(output.0); if output.1
break }` of `bpe` (`tokenization_utils.rs:505-510`); total by
`group_common_pairs_shrinks`. -/
def bpeLoop (bpe_ranks : BpePairVocab) (tokens : List Str) : List Str :=
  let output := group_common_pairs tokens bpe_ranks
  if h2 : output.2 = true then output.1
  else
    have : output.1.length < tokens.length := by
      rcases group_common_pairs_shrinks tokens bpe_ranks with h | h
      · exact absurd h h2
      · exact h
    bpeLoop bpe_ranks output.1
termination_by tokens.length

/-- `bpe` (`tokenization_utils.rs:498`): split into one symbol per
character, merge to a fixed point, and return the merged pieces with
their character counts. -/
def bpe (token : Str) (bpe_ranks : BpePairVocab) : List Str × List Nat :=
  let sub_tokens := token.map (fun c => [c])
  let output := bpeLoop bpe_ranks sub_tokens
  (output, output.map List.length)

/-!  Spec-side reference BPE algorithm (from the spec's words, for the
refinement claim): "start with one symbol per character. Repeatedly
find the adjacent symbol pair with the lowest rank in the Merge Table
(ineligible pairs excluded); if none exists, or one symbol remains,
stop. Otherwise replace every non-overlapping left-to-right occurrence
of that pair with its concatenation and repeat."  -/

/-- Spec: replace every non-overlapping left-to-right occurrence of
the pair with its concatenation. -/
def specReplaceAll (p : Str × Str) : List Str → List Str
  | x :: y :: rest =>
    if x = p.1 ∧ y = p.2 then (p.1 ++ p.2) :: specReplaceAll p rest
    else x :: specReplaceAll p (y :: rest)
  | l => l

/-- Spec: the adjacent symbol pair with the lowest rank in the merge
table, ineligible (absent) pairs excluded; `none` if no eligible pair
exists. -/
def specSelectPair (ranks : BpePairVocab) (symbols : List Str) :
    Option (Str × Str) :=
  minByKey (pairRank ranks)
    ((symbols.zip symbols.tail).filter
      fun p => (pairRank ranks p).isSome)

/-- `specReplaceAll` agrees with the code's merge loop. -/
theorem specReplaceAll_eq_mergePair (b1 b2 : Str) :
    ∀ l : List Str, specReplaceAll (b1, b2) l = mergePair b1 b2 l
  | [] => rfl
  | [x] => by
    by_cases h : x = b1 <;> simp [specReplaceAll, mergePair, h]
  | x :: y :: rest => by
    by_cases h1 : x = b1
    · by_cases h2 : y = b2
      · simp [specReplaceAll, mergePair, h1, h2,
          specReplaceAll_eq_mergePair b1 b2 rest]
      · simp [specReplaceAll, mergePair, h1, h2,
          specReplaceAll_eq_mergePair b1 b2 (y :: rest)]
    · simp [specReplaceAll, mergePair, h1,
        specReplaceAll_eq_mergePair b1 b2 (y :: rest)]

/-- A selected eligible pair occurs adjacently in the symbol list. -/
theorem specSelectPair_mem (ranks : BpePairVocab) (symbols : List Str)
    (p : Str × Str) (h : specSelectPair ranks symbols = some p) :
    p ∈ symbols.zip symbols.tail := by
  have := minByKey_mem (pairRank ranks) _ p h
  exact List.mem_of_mem_filter this

/-- Spec: the reference merge algorithm on a symbol list. -/
def bpeSpecLoop (ranks : BpePairVocab) (symbols : List Str) : List Str :=
  if symbols.length ≤ 1 then symbols
  else
    match hsel : specSelectPair ranks symbols with
    | none => symbols
    | some p =>
      have : (specReplaceAll p symbols).length < symbols.length := by
        rw [show p = (p.1, p.2) from rfl, specReplaceAll_eq_mergePair]
        exact mergePair_length_lt p.1 p.2 symbols
          (specSelectPair_mem ranks symbols p hsel)
      bpeSpecLoop ranks (specReplaceAll p symbols)
termination_by symbols.length

/-- Spec: one symbol per character, then merge. -/
def bpeSpec (ranks : BpePairVocab) (token : Str) : List Str :=
  bpeSpecLoop ranks (token.map fun c => [c])

theorem bpeLoop_done (bpe_ranks : BpePairVocab) (tokens : List Str)
    (h : (group_common_pairs tokens bpe_ranks).2 = true) :
    bpeLoop bpe_ranks tokens = (group_common_pairs tokens bpe_ranks).1 := by
  rw [bpeLoop]
  simp [h]

theorem bpeLoop_step (bpe_ranks : BpePairVocab) (tokens : List Str)
    (h : (group_common_pairs tokens bpe_ranks).2 = false) :
    bpeLoop bpe_ranks tokens =
      bpeLoop bpe_ranks (group_common_pairs tokens bpe_ranks).1 := by
  rw [bpeLoop]
  simp [h]

theorem bpeSpecLoop_of_le_one (ranks : BpePairVocab) (symbols : List Str)
    (h : symbols.length ≤ 1) : bpeSpecLoop ranks symbols = symbols := by
  rw [bpeSpecLoop]
  simp [h]

theorem bpeSpecLoop_of_none (ranks : BpePairVocab) (symbols : List Str)
    (h : ¬ symbols.length ≤ 1) (hsel : specSelectPair ranks symbols = none) :
    bpeSpecLoop ranks symbols = symbols := by
  rw [bpeSpecLoop]
  simp only [if_neg h]
  split <;> simp_all

theorem bpeSpecLoop_of_some (ranks : BpePairVocab) (symbols : List Str)
    (p : Str × Str) (h : ¬ symbols.length ≤ 1)
    (hsel : specSelectPair ranks symbols = some p) :
    bpeSpecLoop ranks symbols = bpeSpecLoop ranks (specReplaceAll p symbols) := by
  rw [bpeSpecLoop]
  simp only [if_neg h]
  split <;> simp_all

/-- The code's merge loop computes the spec's reference algorithm. -/
theorem bpeLoop_eq_specLoop (bpe_ranks : BpePairVocab) :
    ∀ tokens : List Str, bpeLoop bpe_ranks tokens = bpeSpecLoop bpe_ranks tokens
  | [] => by
    rw [bpeLoop_done bpe_ranks [] (by simp [group_common_pairs, get_pairs]),
      bpeSpecLoop_of_le_one bpe_ranks [] (by simp)]
    simp [group_common_pairs, get_pairs]
  | [x] => by
    rw [bpeLoop_done bpe_ranks [x] (by simp [group_common_pairs, get_pairs]),
      bpeSpecLoop_of_le_one bpe_ranks [x] (by simp)]
    simp [group_common_pairs, get_pairs]
  | x :: y :: rest => by
    have hpairs : get_pairs (x :: y :: rest)
        = some ((x :: y :: rest).zip (y :: rest)) := rfl
    have hne : (x :: y :: rest).zip (y :: rest) ≠ [] := by simp
    have hlen : ¬ (x :: y :: rest).length ≤ 1 := by simp
    obtain ⟨bigram, hmin⟩ : ∃ b,
        minByKey (pairRank bpe_ranks) ((x :: y :: rest).zip (y :: rest))
          = some b := by
      have := minByKey_isSome' (pairRank bpe_ranks) _ hne
      cases h : minByKey (pairRank bpe_ranks)
          ((x :: y :: rest).zip (y :: rest))
      · rw [h] at this; simp at this
      · exact ⟨_, rfl⟩
    have hmem := minByKey_mem (pairRank bpe_ranks) _ bigram hmin
    rcases hkey : byte_pair_to_id bpe_ranks bigram with _ | r
    · -- selected pair not in the table: both sides stop
      have hsel : specSelectPair bpe_ranks (x :: y :: rest) = none := by
        unfold specSelectPair
        have hfil : ((x :: y :: rest).zip (y :: rest)).filter
            (fun p => (pairRank bpe_ranks p).isSome) = [] := by
          apply List.filter_eq_nil_iff.mpr
          intro p hp
          have hnlt := minByKey_min (pairRank bpe_ranks) _ bigram hmin p hp
          cases hkp : pairRank bpe_ranks p
          · simp
          · exfalso
            apply hnlt
            rw [hkp]
            have hb : pairRank bpe_ranks bigram = none := hkey
            rw [hb]
            simp [rankLt]
        simp only [List.tail_cons]
        rw [hfil]
        rfl
      have hgcp : group_common_pairs (x :: y :: rest) bpe_ranks
          = (x :: y :: rest, true) := by
        simp only [group_common_pairs, hpairs, hmin, hkey]
        rfl
      rw [bpeLoop_done bpe_ranks _ (by rw [hgcp]),
        bpeSpecLoop_of_none bpe_ranks _ hlen hsel, hgcp]
    · -- selected pair in the table: both sides merge it
      have hsel : specSelectPair bpe_ranks (x :: y :: rest) = some bigram := by
        unfold specSelectPair
        exact minByKey_filter (pairRank bpe_ranks) _ bigram hmin
          (by simp [pairRank, hkey])
      have hrepl : specReplaceAll bigram (x :: y :: rest)
          = mergePair bigram.1 bigram.2 (x :: y :: rest) :=
        specReplaceAll_eq_mergePair bigram.1 bigram.2 _
      have hshrink : (mergePair bigram.1 bigram.2 (x :: y :: rest)).length
          < (x :: y :: rest).length :=
        mergePair_length_lt bigram.1 bigram.2 _ (by simpa using hmem)
      by_cases hone : (mergePair bigram.1 bigram.2 (x :: y :: rest)).length = 1
      · have hgcp : group_common_pairs (x :: y :: rest) bpe_ranks
            = (mergePair bigram.1 bigram.2 (x :: y :: rest), true) := by
          simp only [group_common_pairs, hpairs, hmin, hkey]
          simp [hone]
        rw [bpeLoop_done bpe_ranks _ (by rw [hgcp]),
          bpeSpecLoop_of_some bpe_ranks _ bigram hlen hsel, hrepl,
          bpeSpecLoop_of_le_one bpe_ranks _ (by omega), hgcp]
      · have hgcp : group_common_pairs (x :: y :: rest) bpe_ranks
            = (mergePair bigram.1 bigram.2 (x :: y :: rest), false) := by
          simp only [group_common_pairs, hpairs, hmin, hkey]
          simp [hone]
        rw [bpeLoop_step bpe_ranks _ (by rw [hgcp]),
          bpeSpecLoop_of_some bpe_ranks _ bigram hlen hsel, hrepl, hgcp]
        exact bpeLoop_eq_specLoop bpe_ranks
          (mergePair bigram.1 bigram.2 (x :: y :: rest))
termination_by tokens => tokens.length
decreasing_by
  exact hshrink

/-- C1: `bpe` (iterating `group_common_pairs`) computes, for every
input string and merge table, exactly the reference algorithm: one
symbol per character, repeatedly merge every non-overlapping
left-to-right occurrence of the lowest-ranked in-table adjacent pair,
stopping when no eligible pair exists or one symbol remains; the
second component is the per-piece character count.  Both sides are
Lean functions, hence deterministic and pure in (string, table). -/
theorem c1_bpe_computes_reference_algorithm (token : Str)
    (bpe_ranks : BpePairVocab) :
    bpe token bpe_ranks
      = (bpeSpec bpe_ranks token, (bpeSpec bpe_ranks token).map List.length) := by
  simp [bpe, bpeSpec, bpeLoop_eq_specLoop]

/-- C10: each call to `group_common_pairs` either returns with its
completion flag set or returns a strictly shorter symbol list (the
selected in-table pair occurs adjacently, so at least one merge
happens); this is exactly the measure by which the recursion in
`bpeLoop`/`bpe` is well-founded, so `bpe` is a total function. -/
theorem c10_group_common_pairs_progress (tokens : List Str)
    (bpe_ranks : BpePairVocab) :
    (group_common_pairs tokens bpe_ranks).2 = true ∨
      (group_common_pairs tokens bpe_ranks).1.length < tokens.length :=
  group_common_pairs_shrinks tokens bpe_ranks

/-!  Vocabulary (`base_vocab.rs`).  `HashMap<String, i64>` und
`HashMap<i64, String>` are modelled as association lists with unique
keys; `swap_key_values` maps each `(k, v)` entry to `(v, k)`. -/

/-- `swap_key_values` (`base_vocab.rs:14`). -/
def swap_key_values {T U : Type} (input_hashmap : List (T × U)) :
    List (U × T) :=
  input_hashmap.map fun kv => (kv.2, kv.1)

/-- `Vocab::_token_to_id` (`base_vocab.rs:185`): special map first,
then main map, else the id of the unknown token.  The Rust code
unwraps the final lookup (panicking if the unknown token is absent
from `values`); the panic is modelled as `none`. -/
def Vocab._token_to_id (token : Str) (values : List (Str × Int))
    (special_values : List (Str × Int)) (unknown_value : Str) : Option Int :=
  match assoc token special_values with
  | some index => some index
  | none =>
    match assoc token values with
    | some index => some index
    | none => assoc unknown_value values

/-- `Vocab::_id_to_token` (`base_vocab.rs:214`): special indices
first, then main indices, else the unknown token string (total). -/
def Vocab._id_to_token (id : Int) (indices : List (Int × Str))
    (special_indices : List (Int × Str)) (unknown_value : Str) : Str :=
  match assoc id special_indices with
  | some token => token
  | none =>
    match assoc id indices with
    | some token => token
    | none => unknown_value

/-- `BaseVocab` (`base_vocab.rs:313`); of `special_token_map` only the
mandatory `unk_token` matters to lookup (the optional pad/bos/… fields
only feed registration). -/
structure BaseVocab where
  values : List (Str × Int)
  indices : List (Int × Str)
  unk_token : Str
  special_values : List (Str × Int)
  special_indices : List (Int × Str)

/-- `BaseVocab::token_to_id`. -/
def BaseVocab.token_to_id (v : BaseVocab) (token : Str) : Option Int :=
  Vocab._token_to_id token v.values v.special_values v.unk_token

/-- `BaseVocab::id_to_token`. -/
def BaseVocab.id_to_token (v : BaseVocab) (id : Int) : Str :=
  Vocab._id_to_token id v.indices v.special_indices v.unk_token

/-- `Tokenizer::decode_to_vec` (`base_tokenizer.rs:934`): map ids to
strings, optionally dropping ids present in the special-id map. -/
def decode_to_vec (v : BaseVocab) (token_ids : List Int)
    (skip_special_tokens : Bool) : List Str :=
  if skip_special_tokens then
    (token_ids.filter fun id => (assoc id v.special_indices).isNone).map
      fun id => v.id_to_token id
  else
    token_ids.map fun id => v.id_to_token id

/-- Well-formedness of a vocabulary as built by
`from_values_and_special_token_map`: unique keys and unique ids in the
main map (the bijectivity premise of the claims), both index maps
obtained by swapping, and every special entry registered by looking up
its string in the main map. -/
def BaseVocab.WellFormed (v : BaseVocab) : Prop :=
  (v.values.map Prod.fst).Nodup ∧
  (v.values.map Prod.snd).Nodup ∧
  v.indices = swap_key_values v.values ∧
  v.special_indices = swap_key_values v.special_values ∧
  (v.special_values.map Prod.fst).Nodup ∧
  (∀ e ∈ v.special_values, assoc e.1 v.values = some e.2)

instance (v : BaseVocab) : Decidable v.WellFormed := by
  unfold BaseVocab.WellFormed
  infer_instance

/-- A successful lookup comes from an entry of the list. -/
theorem assoc_mem {α β : Type} [DecidableEq α] (k : α) (b : β) :
    ∀ l : List (α × β), assoc k l = some b → (k, b) ∈ l
  | [], h => by simp [assoc] at h
  | (k', v) :: rest, h => by
    by_cases hk : k = k'
    · subst hk
      simp [assoc] at h
      simp [h]
    · simp [assoc, hk] at h
      exact List.mem_cons_of_mem _ (assoc_mem k b rest h)

/-- With unique keys, every entry is found by lookup. -/
theorem mem_assoc {α β : Type} [DecidableEq α] (k : α) (b : β) :
    ∀ l : List (α × β), (l.map Prod.fst).Nodup → (k, b) ∈ l →
      assoc k l = some b
  | [], _, h => by simp at h
  | (k', v) :: rest, hnd, h => by
    rcases List.mem_cons.mp h with heq | htl
    · rw [show k = k' by exact congrArg Prod.fst heq,
        show b = v by exact congrArg Prod.snd heq]
      simp [assoc]
    · have hk : k ≠ k' := by
        intro hkk
        have hmem : k' ∈ rest.map Prod.fst :=
          List.mem_map.mpr ⟨(k, b), htl, congrArg Prod.fst (by rw [hkk])⟩
        rw [List.map_cons] at hnd
        exact (List.nodup_cons.mp hnd).1 hmem
      simp only [assoc, if_neg hk]
      refine mem_assoc k b rest ?_ htl
      rw [List.map_cons] at hnd
      exact (List.nodup_cons.mp hnd).2

/-- Swapped-pair membership. -/
theorem mem_swap_key_values {T U : Type} (l : List (T × U)) (u : U) (t : T) :
    (u, t) ∈ swap_key_values l ↔ (t, u) ∈ l := by
  unfold swap_key_values
  constructor
  · intro h
    rcases List.mem_map.mp h with ⟨⟨a, b⟩, hm, he⟩
    cases he
    exact hm
  · intro h
    exact List.mem_map.mpr ⟨(t, u), h, rfl⟩

/-- In a list whose second components are unique, entries sharing the
second component share the first. -/
theorem snd_unique {T U : Type} (i : U) (a c : T) :
    ∀ l : List (T × U), (l.map Prod.snd).Nodup →
      (a, i) ∈ l → (c, i) ∈ l → a = c
  | [], _, ha, _ => by simp at ha
  | (x, y) :: rest, hnd, ha, hc => by
    rw [List.map_cons] at hnd
    have hnd1 := (List.nodup_cons.mp hnd).1
    have hnd2 := (List.nodup_cons.mp hnd).2
    rcases List.mem_cons.mp ha with ha1 | ha1 <;>
      rcases List.mem_cons.mp hc with hc1 | hc1
    · rw [show a = x from congrArg Prod.fst ha1,
        show c = x from congrArg Prod.fst hc1]
    · exfalso
      apply hnd1
      rw [show y = i from (congrArg Prod.snd ha1).symm]
      exact List.mem_map.mpr ⟨(c, i), hc1, rfl⟩
    · exfalso
      apply hnd1
      rw [show y = i from (congrArg Prod.snd hc1).symm]
      exact List.mem_map.mpr ⟨(a, i), ha1, rfl⟩
    · exact snd_unique i a c rest hnd2 ha1 hc1

/-- Reverse lookup through `swap_key_values` when the entry with the
given second component is unique. -/
theorem assoc_swap_of_unique {T U : Type} [DecidableEq T] [DecidableEq U]
    (i : U) (t : T) :
    ∀ l : List (T × U), (t, i) ∈ l → (∀ a : T, (a, i) ∈ l → a = t) →
      assoc i (swap_key_values l) = some t
  | [], hm, _ => by simp at hm
  | (x, y) :: rest, hm, huniq => by
    by_cases hyi : i = y
    · subst hyi
      have hx : x = t := huniq x (List.mem_cons_self _ _)
      subst hx
      simp [swap_key_values, assoc]
    · have hm1 : (t, i) ∈ rest := by
        rcases List.mem_cons.mp hm with h | h
        · exact absurd (congrArg Prod.snd h) (by simpa using hyi)
        · exact h
      have hrec := assoc_swap_of_unique i t rest hm1
        (fun a ha => huniq a (List.mem_cons_of_mem _ ha))
      simpa [swap_key_values, assoc, hyi] using hrec

/-- C3: for every well-formed vocabulary (bijective values/indices,
index maps obtained by swapping, special entries registered from the
main map), any token of the main map round-trips through
`token_to_id` then `id_to_token`; and a special-map entry takes
precedence over a main-map entry with the same string (respectively
the same id) in both lookup directions. -/
theorem c3_vocab_roundtrip (v : BaseVocab) (hwf : v.WellFormed) :
    (∀ t i, assoc t v.values = some i →
      ∃ id, v.token_to_id t = some id ∧ v.id_to_token id = t) ∧
    (∀ t i, assoc t v.special_values = some i → v.token_to_id t = some i) ∧
    (∀ i s, assoc i v.special_indices = some s → v.id_to_token i = s) := by
  obtain ⟨hkN, hvN, hind, hspind, hskN, hreg⟩ := hwf
  refine ⟨?_, ?_, ?_⟩
  · intro t i hv
    have hmemv : (t, i) ∈ v.values := assoc_mem t i v.values hv
    rcases hs : assoc t v.special_values with _ | j
    · -- not special: main id, main reverse lookup
      refine ⟨i, ?_, ?_⟩
      · simp [BaseVocab.token_to_id, Vocab._token_to_id, hs, hv]
      · have hspnone : assoc i v.special_indices = none := by
          rcases hsp : assoc i v.special_indices with _ | s
          · rfl
          · exfalso
            have hmem : (i, s) ∈ v.special_indices :=
              assoc_mem i s v.special_indices hsp
            rw [hspind] at hmem
            have hmem2 : (s, i) ∈ v.special_values :=
              (mem_swap_key_values v.special_values i s).mp hmem
            have hsv : assoc s v.values = some i := hreg (s, i) hmem2
            have hst : s = t :=
              snd_unique i s t v.values hvN (assoc_mem s i v.values hsv) hmemv
            subst hst
            rw [mem_assoc s i v.special_values hskN hmem2] at hs
            cases hs
        have hidx : assoc i v.indices = some t := by
          rw [hind]
          exact assoc_swap_of_unique i t v.values hmemv
            (fun a ha => snd_unique i a t v.values hvN ha hmemv)
        simp [BaseVocab.id_to_token, Vocab._id_to_token, hspnone, hidx]
    · -- special: special id equals main id, special reverse lookup
      have hmems : (t, j) ∈ v.special_values := assoc_mem t j v.special_values hs
      have hji : j = i := by
        have := hreg (t, j) hmems
        rw [hv] at this
        exact (Option.some.inj this).symm
      subst hji
      refine ⟨j, ?_, ?_⟩
      · simp [BaseVocab.token_to_id, Vocab._token_to_id, hs]
      · have hsp : assoc j v.special_indices = some t := by
          rw [hspind]
          refine assoc_swap_of_unique j t v.special_values hmems ?_
          intro a ha
          have hva : assoc a v.values = some j := hreg (a, j) ha
          exact snd_unique j a t v.values hvN
            (assoc_mem a j v.values hva) (assoc_mem t j v.values (hreg (t, j) hmems))
        simp [BaseVocab.id_to_token, Vocab._id_to_token, hsp]
  · intro t i hs
    simp [BaseVocab.token_to_id, Vocab._token_to_id, hs]
  · intro i s hsp
    simp [BaseVocab.id_to_token, Vocab._id_to_token, hsp]

/-- Concrete vocabulary for the C3 witness. -/
def vocabW : BaseVocab :=
  { values := [([ 'a' ], 0), ([ 'u' ], 1)]
    indices := [(0, [ 'a' ]), (1, [ 'u' ])]
    unk_token := [ 'u' ]
    special_values := [([ 'u' ], 1)]
    special_indices := [(1, [ 'u' ])] }

/-- Witness for C3 at a concrete vocabulary. -/
theorem c3_vocab_roundtrip_witness :
    vocabW.WellFormed ∧
      ∃ id, vocabW.token_to_id [ 'a' ] = some id ∧
        vocabW.id_to_token id = [ 'a' ] :=
  ⟨by decide, (c3_vocab_roundtrip vocabW (by decide)).1 [ 'a' ] 0 (by decide)⟩

/-- C8: with the unknown token present in the main map, `token_to_id`
is total (the internal unwrap is unreachable) and follows the
special-then-main-then-unknown cascade; `id_to_token` mirrors it and
never fails; `decode_to_vec` with `skip_special_tokens = false`
decodes every id. -/
theorem c8_lookup_total (v : BaseVocab) (unk_id : Int)
    (hunk : assoc v.unk_token v.values = some unk_id) :
    (∀ token, ∃ i, v.token_to_id token = some i) ∧
    (∀ token i, assoc token v.special_values = some i →
      v.token_to_id token = some i) ∧
    (∀ token i, assoc token v.special_values = none →
      assoc token v.values = some i → v.token_to_id token = some i) ∧
    (∀ token, assoc token v.special_values = none →
      assoc token v.values = none → v.token_to_id token = some unk_id) ∧
    (∀ id s, assoc id v.special_indices = some s → v.id_to_token id = s) ∧
    (∀ id s, assoc id v.special_indices = none →
      assoc id v.indices = some s → v.id_to_token id = s) ∧
    (∀ id, assoc id v.special_indices = none →
      assoc id v.indices = none → v.id_to_token id = v.unk_token) ∧
    (∀ ids, (decode_to_vec v ids false).length = ids.length) := by
  refine ⟨?_, ?_, ?_, ?_, ?_, ?_, ?_, ?_⟩
  · intro token
    unfold BaseVocab.token_to_id Vocab._token_to_id
    rcases assoc token v.special_values with _ | i
    · rcases assoc token v.values with _ | i
      · exact ⟨unk_id, hunk⟩
      · exact ⟨i, rfl⟩
    · exact ⟨i, rfl⟩
  · intro token i hs
    simp [BaseVocab.token_to_id, Vocab._token_to_id, hs]
  · intro token i hs hv
    simp [BaseVocab.token_to_id, Vocab._token_to_id, hs, hv]
  · intro token hs hv
    simp [BaseVocab.token_to_id, Vocab._token_to_id, hs, hv, hunk]
  · intro id s hsp
    simp [BaseVocab.id_to_token, Vocab._id_to_token, hsp]
  · intro id s hsp hix
    simp [BaseVocab.id_to_token, Vocab._id_to_token, hsp, hix]
  · intro id hsp hix
    simp [BaseVocab.id_to_token, Vocab._id_to_token, hsp, hix]
  · intro ids
    simp [decode_to_vec]

/-- Witness for C8 at a concrete vocabulary. -/
theorem c8_lookup_total_witness :
    assoc vocabW.unk_token vocabW.values = some 1 ∧
      ∃ i, vocabW.token_to_id [ 'z' ] = some i :=
  ⟨by decide, (c8_lookup_total vocabW 1 (by decide)).1 [ 'z' ]⟩

/-!  Truncation (`tokenization_utils.rs:231-429`). -/

/-- `TokenIdsWithOffsets` (`base_tokenizer.rs:436`). -/
structure TokenIdsWithOffsets where
  ids : List Int
  offsets : List (Option Offset)
  reference_offsets : List (List OffsetSize)
  masks : List Mask
  deriving Repr, DecidableEq

/-- `enum TruncationStrategy` (`base_tokenizer.rs:19`). -/
inductive TruncationStrategy where
  | longest_first
  | only_first
  | only_second
  | do_not_truncate
  deriving Repr, DecidableEq

/-- Modelled from the spec: `error.rs` is not under `src/`; the spec's
error taxonomy (section 7) lists VocabularyParsingError, TokenNotFound
and ValueError, which matches every constructor used by the sources. -/
inductive TokenizerError where
  | VocabularyParsingError (msg : String)
  | TokenNotFound (msg : String)
  | ValueError (msg : String)
  deriving Repr, DecidableEq

/-- Result of `truncate_with_overflow` (the function mutates its four
list arguments and returns the two overflow lists; all six are
returned here). -/
structure TruncOut where
  sequence : List Int
  offsets : List (Option Offset)
  original_positions : List (List OffsetSize)
  mask : List Mask
  overflow_tokens : List Int
  overflow_offsets : List (Option Offset)
  deriving Repr, DecidableEq

/-- `truncate_with_overflow` (`tokenization_utils.rs:394`): split the
last `num_tokens_to_remove` entries into overflow, truncate masks and
original positions only when masks are used, then copy up to `stride`
trailing retained tokens to the front of the overflow.  (The Rust
`assert_eq!` length checks panic on ill-formed inputs; claims carry
the corresponding well-formedness hypotheses instead.) -/
def truncate_with_overflow (sequence : List Int)
    (offsets : List (Option Offset)) (original_positions : List (List OffsetSize))
    (mask : List Mask) (num_tokens_to_remove stride : Nat) : TruncOut :=
  let cutoff := sequence.length - num_tokens_to_remove
  let overflow_tokens := sequence.drop cutoff
  let sequence' := sequence.take cutoff
  let overflow_offsets := if offsets ≠ [] then offsets.drop cutoff else []
  let offsets' := if offsets ≠ [] then offsets.take cutoff else offsets
  let mask' := if mask ≠ [] then mask.take cutoff else mask
  let original_positions' :=
    if mask ≠ [] then original_positions.take cutoff else original_positions
  let window_len := min sequence'.length stride
  let overflow_tokens' :=
    if 0 < window_len then
      sequence'.drop (sequence'.length - window_len) ++ overflow_tokens
    else overflow_tokens
  let overflow_offsets' :=
    if 0 < window_len ∧ offsets' ≠ [] then
      offsets'.drop (offsets'.length - window_len) ++ overflow_offsets
    else overflow_offsets
  ⟨sequence', offsets', original_positions', mask', overflow_tokens',
    overflow_offsets'⟩

/-- State of the `LongestFirst` pop loop
(`tokenization_utils.rs:263-290`). -/
structure LfState where
  s1 : TokenIdsWithOffsets
  s2 : TokenIdsWithOffsets
  overflow_tokens : List Int
  overflow_offsets : List (Option Offset)
  deriving Repr, DecidableEq

/-- One pop from the tail of a sequence: the id is prepended to the
overflow, the offset likewise when offsets are used, the reference
offsets and masks are popped (the mask pop only when masks are used).
(The Rust `ids.pop().unwrap()` panics on an empty sequence — an
unreachable state under the loop's length guard — modelled as a
no-op.) -/
def lfPop (s : TokenIdsWithOffsets) (overflow_tokens : List Int)
    (overflow_offsets : List (Option Offset)) :
    TokenIdsWithOffsets × List Int × List (Option Offset) :=
  match s.ids.getLast? with
  | none => (s, overflow_tokens, overflow_offsets)
  | some v =>
    let offsets' := if s.offsets ≠ [] then s.offsets.dropLast else s.offsets
    let overflow_offsets' :=
      if s.offsets ≠ [] then s.offsets.getLastD none :: overflow_offsets
      else overflow_offsets
    let masks' := if s.masks ≠ [] then s.masks.dropLast else s.masks
    (⟨s.ids.dropLast, offsets', s.reference_offsets.dropLast, masks'⟩,
      v :: overflow_tokens, overflow_offsets')

/-- One iteration of the `LongestFirst` loop: pop from sequence 1 when
`ids1.len() >= ids2.len()`, else from sequence 2. -/
def lfStep (st : LfState) : LfState :=
  if st.s2.ids.length ≤ st.s1.ids.length then
    let r := lfPop st.s1 st.overflow_tokens st.overflow_offsets
    ⟨r.1, st.s2, r.2.1, r.2.2⟩
  else
    let r := lfPop st.s2 st.overflow_tokens st.overflow_offsets
    ⟨st.s1, r.1, r.2.1, r.2.2⟩

/-- `for _ in 0..num_tokens_to_remove` over `lfStep`. -/
def lfLoop : Nat → LfState → LfState
  | 0, st => st
  | n + 1, st => lfLoop n (lfStep st)

/-- `truncate_sequences` (`tokenization_utils.rs:231`). -/
def truncate_sequences (token_ids_with_offsets_1 : TokenIdsWithOffsets)
    (token_ids_with_offsets_2 : Option TokenIdsWithOffsets)
    (num_tokens_to_remove : Nat) (truncation_strategy : TruncationStrategy)
    (stride : Nat) :
    Except TokenizerError
      (TokenIdsWithOffsets × Option TokenIdsWithOffsets × List Int ×
        List (Option Offset)) :=
  if num_tokens_to_remove = 0 then
    .ok (token_ids_with_offsets_1, token_ids_with_offsets_2, [], [])
  else
    match token_ids_with_offsets_2 with
    | some t2 =>
      match truncation_strategy with
      | .longest_first =>
        if num_tokens_to_remove ≤
            token_ids_with_offsets_1.ids.length + t2.ids.length then
          let st := lfLoop num_tokens_to_remove
            ⟨token_ids_with_offsets_1, t2, [], []⟩
          let window_len := min st.s1.ids.length stride
          let overflow_tokens :=
            if 0 < window_len then
              st.s1.ids.drop (st.s1.ids.length - window_len) ++
                st.overflow_tokens
            else st.overflow_tokens
          let overflow_offsets :=
            if 0 < window_len ∧ st.s1.offsets ≠ [] then
              st.s1.offsets.drop (st.s1.offsets.length - window_len) ++
                st.overflow_offsets
            else st.overflow_offsets
          .ok (st.s1, some st.s2, overflow_tokens, overflow_offsets)
        else
          .error (.ValueError
            "Combined sequence length too short for requested truncation amount")
      | .only_first =>
        if num_tokens_to_remove ≤ token_ids_with_offsets_1.ids.length then
          let r := truncate_with_overflow token_ids_with_offsets_1.ids
            token_ids_with_offsets_1.offsets
            token_ids_with_offsets_1.reference_offsets
            token_ids_with_offsets_1.masks num_tokens_to_remove stride
          .ok (⟨r.sequence, r.offsets, r.original_positions, r.mask⟩,
            token_ids_with_offsets_2, r.overflow_tokens, r.overflow_offsets)
        else
          .error (.ValueError "First sequence too short for first only truncation")
      | .only_second =>
        if num_tokens_to_remove ≤ t2.ids.length then
          let r := truncate_with_overflow t2.ids t2.offsets
            t2.reference_offsets t2.masks num_tokens_to_remove stride
          .ok (token_ids_with_offsets_1,
            some ⟨r.sequence, r.offsets, r.original_positions, r.mask⟩,
            r.overflow_tokens, r.overflow_offsets)
        else
          .error (.ValueError "Second sequence too short for second only truncation")
      | .do_not_truncate =>
        .error (.ValueError "Truncation needed but no truncation requested")
    | none =>
      if num_tokens_to_remove ≤ token_ids_with_offsets_1.ids.length then
        match truncation_strategy with
        | .longest_first | .only_first =>
          let r := truncate_with_overflow token_ids_with_offsets_1.ids
            token_ids_with_offsets_1.offsets
            token_ids_with_offsets_1.reference_offsets
            token_ids_with_offsets_1.masks num_tokens_to_remove stride
          .ok (⟨r.sequence, r.offsets, r.original_positions, r.mask⟩,
            none, r.overflow_tokens, r.overflow_offsets)
        | .only_second =>
          .error (.ValueError
            "Invalid truncation strategy for single sentence truncation")
        | .do_not_truncate =>
          .error (.ValueError "Truncation needed but no truncation requested")
      else
        .error (.ValueError "First sequence too short for first only truncation")

/-- Documented precondition of `truncate_sequences`: offset and mask
vectors are empty or parallel to the ids (the Rust `assert_eq!` checks
panic otherwise). -/
def TokenIdsWithOffsets.OffsetsWellFormed (t : TokenIdsWithOffsets) : Prop :=
  (t.offsets = [] ∨ t.offsets.length = t.ids.length) ∧
  (t.masks = [] ∨ t.masks.length = t.ids.length)

instance (t : TokenIdsWithOffsets) : Decidable t.OffsetsWellFormed := by
  unfold TokenIdsWithOffsets.OffsetsWellFormed
  infer_instance

/-- From the claim's words: the requested removal can be performed:
always when zero; never for DoNotTruncate; for OnlyFirst/OnlySecond
when the named sequence is long enough (OnlySecond needs a second
sequence); for LongestFirst when the combined length suffices. -/
def truncationPossible (t1 : TokenIdsWithOffsets)
    (t2 : Option TokenIdsWithOffsets) (removal : Nat)
    (strat : TruncationStrategy) : Bool :=
  removal = 0 ||
    match strat, t2 with
    | .do_not_truncate, _ => false
    | .only_first, _ => removal ≤ t1.ids.length
    | .only_second, some t2v => removal ≤ t2v.ids.length
    | .only_second, none => false
    | .longest_first, some t2v => removal ≤ t1.ids.length + t2v.ids.length
    | .longest_first, none => removal ≤ t1.ids.length

/-- `Result::is_ok`. -/
def exceptIsOk {ε α : Type} : Except ε α → Bool
  | .ok _ => true
  | .error _ => false

/-- C5: `truncate_sequences` fails exactly when the requested removal
cannot be performed (per strategy and sequence lengths), every failure
is a ValueError, and a zero removal succeeds for every strategy
returning the inputs unchanged with empty overflow. -/
theorem c5_truncate_error_conditions (t1 : TokenIdsWithOffsets)
    (t2 : Option TokenIdsWithOffsets) (r stride : Nat)
    (strat : TruncationStrategy) (hwf1 : t1.OffsetsWellFormed)
    (hwf2 : ∀ t2v, t2 = some t2v → t2v.OffsetsWellFormed) :
    (exceptIsOk (truncate_sequences t1 t2 r strat stride)
      = truncationPossible t1 t2 r strat) ∧
    (∀ e, truncate_sequences t1 t2 r strat stride = .error e →
      ∃ msg, e = .ValueError msg) ∧
    (r = 0 → truncate_sequences t1 t2 r strat stride = .ok (t1, t2, [], [])) := by
  by_cases hr : r = 0
  · subst hr
    exact ⟨by simp [truncate_sequences, truncationPossible, exceptIsOk],
      by simp [truncate_sequences], fun _ => by simp [truncate_sequences]⟩
  · refine ⟨?_, ?_, fun h => absurd h hr⟩
    · rcases t2 with _ | t2v
      · rcases strat
        · by_cases hc : r ≤ t1.ids.length <;>
            simp [truncate_sequences, truncationPossible, exceptIsOk, hr, hc]
        · by_cases hc : r ≤ t1.ids.length <;>
            simp [truncate_sequences, truncationPossible, exceptIsOk, hr, hc]
        · by_cases hc : r ≤ t1.ids.length <;>
            simp [truncate_sequences, truncationPossible, exceptIsOk, hr, hc]
        · by_cases hc : r ≤ t1.ids.length <;>
            simp [truncate_sequences, truncationPossible, exceptIsOk, hr, hc]
      · rcases strat
        · by_cases hc : r ≤ t1.ids.length + t2v.ids.length <;>
            simp [truncate_sequences, truncationPossible, exceptIsOk, hr, hc]
        · by_cases hc : r ≤ t1.ids.length <;>
            simp [truncate_sequences, truncationPossible, exceptIsOk, hr, hc]
        · by_cases hc : r ≤ t2v.ids.length <;>
            simp [truncate_sequences, truncationPossible, exceptIsOk, hr, hc]
        · simp [truncate_sequences, truncationPossible, exceptIsOk, hr]
    · intro e he
      rcases t2 with _ | t2v
      · rcases strat
        all_goals
          by_cases hc : r ≤ t1.ids.length <;>
            simp [truncate_sequences, hr, hc] at he <;>
            exact ⟨_, he.symm⟩
      · rcases strat
        · by_cases hc : r ≤ t1.ids.length + t2v.ids.length <;>
            simp [truncate_sequences, hr, hc] at he <;>
            exact ⟨_, he.symm⟩
        · by_cases hc : r ≤ t1.ids.length <;>
            simp [truncate_sequences, hr, hc] at he <;>
            exact ⟨_, he.symm⟩
        · by_cases hc : r ≤ t2v.ids.length <;>
            simp [truncate_sequences, hr, hc] at he <;>
            exact ⟨_, he.symm⟩
        · simp [truncate_sequences, hr] at he
          exact ⟨_, he.symm⟩

/-- Witness for C5 at a concrete failing input (OnlyFirst, removal
larger than the sequence). -/
theorem c5_truncate_error_conditions_witness :
    exceptIsOk (truncate_sequences ⟨[1], [], [], []⟩ none 2 .only_first 0)
      = truncationPossible ⟨[1], [], [], []⟩ none 2 .only_first :=
  (c5_truncate_error_conditions ⟨[1], [], [], []⟩ none 2 0 .only_first
    (by decide) (fun t2v h => by cases h)).1

/-- Spec-side description of one `LongestFirst` removal step on the id
lists (amended tie-break: on equal lengths the token is popped from
sequence 1, matching the code's `>=`): pop one token from the tail of
the currently-longer sequence and prepend it to the overflow. -/
def lfSpecStep (st : List Int × List Int × List Int) :
    List Int × List Int × List Int :=
  if st.2.1.length ≤ st.1.length then
    match st.1.getLast? with
    | some v => (st.1.dropLast, st.2.1, v :: st.2.2)
    | none => st
  else
    match st.2.1.getLast? with
    | some v => (st.1, st.2.1.dropLast, v :: st.2.2)
    | none => st

/-- Iterated spec-side removal. -/
def lfSpecLoop : Nat → List Int × List Int × List Int →
    List Int × List Int × List Int
  | 0, st => st
  | n + 1, st => lfSpecLoop n (lfSpecStep st)

/-- The code's loop body agrees with the spec-side step on the id
lists and the token overflow. -/
theorem lfStep_proj (st : LfState) :
    ((lfStep st).s1.ids, (lfStep st).s2.ids, (lfStep st).overflow_tokens)
      = lfSpecStep (st.s1.ids, st.s2.ids, st.overflow_tokens) := by
  unfold lfStep lfSpecStep
  by_cases h : st.s2.ids.length ≤ st.s1.ids.length
  · simp only [if_pos h]
    unfold lfPop
    cases hg : st.s1.ids.getLast? <;> simp [hg]
  · simp only [if_neg h]
    unfold lfPop
    cases hg : st.s2.ids.getLast? <;> simp [hg]

/-- The iterated loop agrees with the iterated spec-side step. -/
theorem lfLoop_proj :
    ∀ (n : Nat) (st : LfState),
      ((lfLoop n st).s1.ids, (lfLoop n st).s2.ids,
        (lfLoop n st).overflow_tokens)
        = lfSpecLoop n (st.s1.ids, st.s2.ids, st.overflow_tokens)
  | 0, st => rfl
  | n + 1, st => by
    simp only [lfLoop, lfSpecLoop]
    rw [← lfStep_proj st]
    exact lfLoop_proj n (lfStep st)

/-- C6 counterexample to the claimed tie-break: with two length-1
sequences and one token to remove, the code pops from sequence 1 (the
second sequence keeps its token), whereas the claim says equal lengths
pop from sequence 2 (which would leave the second sequence empty). -/
theorem c6_tie_break_counterexample :
    truncate_sequences ⟨[10], [], [], []⟩ (some ⟨[20], [], [], []⟩) 1
        .longest_first 0
      = .ok (⟨[], [], [], []⟩, some ⟨[20], [], [], []⟩, [10], []) ∧
    (⟨[20], [], [], []⟩ : TokenIdsWithOffsets) ≠ ⟨[], [], [], []⟩ :=
  ⟨rfl, by decide⟩

/-- C6 (amended): under LongestFirst with two sequences and stride 0,
each removal step pops one token from the tail of the currently-longer
sequence — tie-break: on equal lengths the token is popped from
sequence **1** — and prepends it to the overflow buffer. -/
theorem c6_longest_first_pop_semantics (t1 t2 : TokenIdsWithOffsets)
    (r : Nat) (hr : 0 < r) (hlen : r ≤ t1.ids.length + t2.ids.length) :
    ∃ out1 out2 ovT ovO,
      truncate_sequences t1 (some t2) r .longest_first 0
        = .ok (out1, some out2, ovT, ovO) ∧
      (out1.ids, out2.ids, ovT) = lfSpecLoop r (t1.ids, t2.ids, []) := by
  have hne : r ≠ 0 := by omega
  refine ⟨(lfLoop r ⟨t1, t2, [], []⟩).s1, (lfLoop r ⟨t1, t2, [], []⟩).s2,
    (lfLoop r ⟨t1, t2, [], []⟩).overflow_tokens,
    (lfLoop r ⟨t1, t2, [], []⟩).overflow_offsets, ?_, ?_⟩
  · simp [truncate_sequences, hne, hlen]
  · exact lfLoop_proj r ⟨t1, t2, [], []⟩

/-- Witness for the amended C6 at a concrete tie. -/
theorem c6_longest_first_pop_semantics_witness :
    ∃ out1 out2 ovT ovO,
      truncate_sequences ⟨[10], [], [], []⟩ (some ⟨[20], [], [], []⟩) 1
          .longest_first 0
        = .ok (out1, some out2, ovT, ovO) ∧
      (out1.ids, out2.ids, ovT) = lfSpecLoop 1 ([10], [20], []) :=
  c6_longest_first_pop_semantics ⟨[10], [], [], []⟩ ⟨[20], [], [], []⟩ 1
    (by decide) (by decide)

/-!  `ConsolidatedTokenIterator` (`base_tokenizer.rs:233-266`),
modelled generically over the token type through its mask accessor
(the Rust iterator is generic over `TokenTrait`). -/

/-- `ConsolidatedTokenIterator::next`: advance `cursor` until a
non-Continuation token strictly after `begin` (returning the slice
`tokens[begin..cursor]` and the updated state) or until past the end
(returning the remaining buffer, then `None`). -/
def ctiNext {α : Type} (m : α → Mask) (tokens : List α)
    (begin_ cursor : Nat) : Option (List α × Nat × Nat) :=
  if h : cursor < tokens.length then
    if m tokens[cursor] ≠ Mask.continuation ∧ begin_ < cursor then
      some ((tokens.drop begin_).take (cursor - begin_), cursor, cursor + 1)
    else
      ctiNext m tokens begin_ (cursor + 1)
  else
    if begin_ < cursor then
      some ((tokens.drop begin_).take (cursor - begin_), cursor + 1, cursor + 1)
    else
      none
termination_by tokens.length - cursor

/-- Drain the iterator, collecting the yielded groups.  The fuel
bounds the number of `next` calls; `tokens.length + 2` suffices from
the initial state because every yield strictly advances `begin`. -/
def ctiCollect {α : Type} (m : α → Mask) (tokens : List α) :
    Nat → Nat → Nat → List (List α)
  | 0, _, _ => []
  | fuel + 1, begin_, cursor =>
    match ctiNext m tokens begin_ cursor with
    | none => []
    | some (g, b, c) => g :: ctiCollect m tokens fuel b c

/-- `iter_consolidate_tokens` (`base_tokenizer.rs:289`): all groups of
the iterator started at `begin = cursor = 0`. -/
def iter_consolidate_tokens {α : Type} (m : α → Mask) (tokens : List α) :
    List (List α) :=
  ctiCollect m tokens (tokens.length + 2) 0 0

theorem length_dropWhile_le {α : Type} (p : α → Bool) (l : List α) :
    (l.dropWhile p).length ≤ l.length := by
  conv_rhs => rw [← List.takeWhile_append_dropWhile p l]
  rw [List.length_append]
  omega

/-- Spec: maximal contiguous runs in which every token after the
first has `Mask::Continuation`; a run ends whenever the next token's
mask is not Continuation. -/
def consolidateSpec {α : Type} (m : α → Mask) : List α → List (List α)
  | [] => []
  | x :: xs =>
    (x :: xs.takeWhile fun t => decide (m t = Mask.continuation)) ::
      consolidateSpec m (xs.dropWhile fun t => decide (m t = Mask.continuation))
termination_by l => l.length
decreasing_by
  simp only [List.length_cons]
  exact Nat.lt_succ_of_le (length_dropWhile_le _ _)

/-- Closed form of a scan of `ctiNext` from a state with
`begin < cursor`: it stops right before the next non-Continuation
token (or consumes the whole tail). -/
def ctiScanTarget {α : Type} (m : α → Mask) (tokens : List α)
    (begin_ cursor : Nat) : Option (List α × Nat × Nat) :=
  if cursor + ((tokens.drop cursor).takeWhile fun t =>
      decide (m t = Mask.continuation)).length < tokens.length then
    some ((tokens.drop begin_).take
        (cursor + ((tokens.drop cursor).takeWhile fun t =>
          decide (m t = Mask.continuation)).length - begin_),
      cursor + ((tokens.drop cursor).takeWhile fun t =>
        decide (m t = Mask.continuation)).length,
      cursor + ((tokens.drop cursor).takeWhile fun t =>
        decide (m t = Mask.continuation)).length + 1)
  else
    some ((tokens.drop begin_).take (tokens.length - begin_),
      tokens.length + 1, tokens.length + 1)

theorem ctiNext_scan {α : Type} (m : α → Mask) (toks : List α)
    (b c : Nat) (hbc : b < c) (hc : c ≤ toks.length) :
    ctiNext m toks b c = ctiScanTarget m toks b c := by
  by_cases h : c < toks.length
  · rw [ctiNext]
    simp only [dif_pos h]
    have hdrop : toks.drop c = toks[c] :: toks.drop (c + 1) :=
      List.drop_eq_getElem_cons h
    by_cases hm : m toks[c] = Mask.continuation
    · rw [if_neg (by simp [hm])]
      rw [ctiNext_scan m toks b (c + 1) (by omega) (by omega)]
      have htw : ((toks.drop c).takeWhile fun t =>
          decide (m t = Mask.continuation))
            = toks[c] :: ((toks.drop (c + 1)).takeWhile fun t =>
              decide (m t = Mask.continuation)) := by
        rw [hdrop, List.takeWhile_cons, if_pos (by simp [hm])]
      unfold ctiScanTarget
      rw [htw]
      simp only [List.length_cons]
      generalize ((toks.drop (c + 1)).takeWhile fun t =>
        decide (m t = Mask.continuation)).length = L
      rw [show c + (L + 1) = c + 1 + L from by omega]
    · rw [if_pos ⟨hm, hbc⟩]
      have htw : ((toks.drop c).takeWhile fun t =>
          decide (m t = Mask.continuation)) = [] := by
        rw [hdrop, List.takeWhile_cons, if_neg (by simp [hm])]
      unfold ctiScanTarget
      rw [htw]
      simp only [List.length_nil, Nat.add_zero]
      rw [if_pos h]
  · have hce : c = toks.length := by omega
    subst hce
    rw [ctiNext]
    simp only [dif_neg (lt_irrefl _), if_pos hbc]
    simp [ctiScanTarget]
termination_by toks.length - c

/-- The drained iterator yields nothing from a state past the end
with `begin = cursor`. -/
theorem ctiCollect_none {α : Type} (m : α → Mask) (toks : List α)
    (fuel b : Nat) (hb : toks.length < b) :
    ctiCollect m toks fuel b b = [] := by
  cases fuel with
  | zero => rfl
  | succ fuel =>
    have hnext : ctiNext m toks b b = none := by
      rw [ctiNext]
      rw [dif_neg (by omega)]
      rw [if_neg (by omega)]
    simp only [ctiCollect, hnext]

/-- From a freshly started run (`begin = k`, `cursor = k + 1`) the
drained iterator produces exactly the spec's chunks of the suffix. -/
theorem ctiCollect_eq {α : Type} (m : α → Mask) (toks : List α) :
    ∀ (fuel k : Nat), k < toks.length → toks.length + 1 - k ≤ fuel →
      ctiCollect m toks fuel k (k + 1) = consolidateSpec m (toks.drop k)
  | 0, k, hk, hfuel => by omega
  | fuel + 1, k, hk, hfuel => by
    have hscan := ctiNext_scan m toks k (k + 1) (by omega) (by omega)
    have hdropk : toks.drop k = toks[k] :: toks.drop (k + 1) :=
      List.drop_eq_getElem_cons hk
    have hrunpre : ((toks.drop (k + 1)).takeWhile fun t =>
        decide (m t = Mask.continuation))
          = (toks.drop (k + 1)).take
            ((toks.drop (k + 1)).takeWhile fun t =>
              decide (m t = Mask.continuation)).length :=
      List.prefix_iff_eq_take.mp
        (List.takeWhile_prefix fun t => decide (m t = Mask.continuation))
    have hdw : ((toks.drop (k + 1)).dropWhile fun t =>
        decide (m t = Mask.continuation))
          = toks.drop (k + 1 + ((toks.drop (k + 1)).takeWhile fun t =>
            decide (m t = Mask.continuation)).length) := by
      have h1 := List.drop_left
        ((toks.drop (k + 1)).takeWhile fun t =>
          decide (m t = Mask.continuation))
        ((toks.drop (k + 1)).dropWhile fun t =>
          decide (m t = Mask.continuation))
      rw [List.takeWhile_append_dropWhile] at h1
      rw [List.drop_drop] at h1
      exact h1.symm
    unfold ctiScanTarget at hscan
    by_cases hj : k + 1 + ((toks.drop (k + 1)).takeWhile fun t =>
        decide (m t = Mask.continuation)).length < toks.length
    · rw [if_pos hj] at hscan
      simp only [ctiCollect, hscan]
      have hIH := ctiCollect_eq m toks fuel
        (k + 1 + ((toks.drop (k + 1)).takeWhile fun t =>
          decide (m t = Mask.continuation)).length) hj (by omega)
      rw [hIH]
      have hgroup : (toks.drop k).take
          (k + 1 + ((toks.drop (k + 1)).takeWhile fun t =>
            decide (m t = Mask.continuation)).length - k)
          = toks[k] :: ((toks.drop (k + 1)).takeWhile fun t =>
            decide (m t = Mask.continuation)) := by
        rw [hdropk]
        rw [show k + 1 + ((toks.drop (k + 1)).takeWhile fun t =>
          decide (m t = Mask.continuation)).length - k
            = ((toks.drop (k + 1)).takeWhile fun t =>
              decide (m t = Mask.continuation)).length + 1 from by omega]
        rw [List.take_succ_cons]
        rw [← hrunpre]
      rw [hgroup]
      conv_rhs => rw [hdropk]
      simp only [consolidateSpec]
      rw [hdw]
    · rw [if_neg hj] at hscan
      simp only [ctiCollect, hscan]
      rw [ctiCollect_none m toks fuel (toks.length + 1) (by omega)]
      have hlen : ((toks.drop (k + 1)).takeWhile fun t =>
          decide (m t = Mask.continuation)).length
            = (toks.drop (k + 1)).length := by
        have h1 : ((toks.drop (k + 1)).takeWhile fun t =>
            decide (m t = Mask.continuation)).length
              ≤ (toks.drop (k + 1)).length := by
          conv_rhs => rw [← List.takeWhile_append_dropWhile
            (fun t => decide (m t = Mask.continuation)) (toks.drop (k + 1))]
          rw [List.length_append]
          omega
        have h2 : (toks.drop (k + 1)).length = toks.length - (k + 1) :=
          List.length_drop (k + 1) toks
        omega
      have hrun : ((toks.drop (k + 1)).takeWhile fun t =>
          decide (m t = Mask.continuation)) = toks.drop (k + 1) := by
        rw [hrunpre, hlen, List.take_length]
      have hgroup : (toks.drop k).take (toks.length - k)
          = toks[k] :: toks.drop (k + 1) := by
        rw [show toks.length - k = (toks.drop k).length from
          (List.length_drop k toks).symm]
        rw [List.take_length]
        exact hdropk
      rw [hgroup]
      conv_rhs => rw [hdropk]
      simp only [consolidateSpec]
      rw [hdw, hrun]
      have hempty : toks.drop (k + 1 + (toks.drop (k + 1)).length) = [] := by
        apply List.drop_eq_nil_of_le
        rw [List.length_drop]
        omega
      rw [hempty]
      simp only [consolidateSpec]

/-- The iterator equals the spec chunking on every token sequence. -/
theorem iter_consolidate_eq {α : Type} (m : α → Mask) (toks : List α) :
    iter_consolidate_tokens m toks = consolidateSpec m toks := by
  cases toks with
  | nil =>
    unfold iter_consolidate_tokens
    have hnext : ctiNext m ([] : List α) 0 0 = none := by
      rw [ctiNext]
      simp
    simp [ctiCollect, hnext, consolidateSpec]
  | cons x xs =>
    unfold iter_consolidate_tokens
    have h00 : ctiNext m (x :: xs) 0 0 = ctiNext m (x :: xs) 0 1 := by
      rw [ctiNext]
      rw [dif_pos (by simp : (0 : Nat) < (x :: xs).length)]
      rw [if_neg (by omega)]
    have hcc : ctiCollect m (x :: xs) ((x :: xs).length + 2) 0 0
        = ctiCollect m (x :: xs) ((x :: xs).length + 2) 0 1 := by
      conv_lhs => rw [show (x :: xs).length + 2
        = ((x :: xs).length + 1) + 1 from rfl]
      conv_rhs => rw [show (x :: xs).length + 2
        = ((x :: xs).length + 1) + 1 from rfl]
      simp only [ctiCollect]
      rw [h00]
    rw [hcc]
    have := ctiCollect_eq m (x :: xs) ((x :: xs).length + 2) 0
      (by simp) (by omega)
    simpa using this

/-- C7 counterexample: on masks `[None, Begin, Continuation, None]`
the iterator yields THREE groups — `[None]`, `[Begin, Continuation]`,
`[None]` — not the two groups stated by the claim (the leading
standalone `None` token forms its own group). -/
theorem c7_example_counterexample :
    iter_consolidate_tokens (fun x => x)
        [Mask.none, Mask.begin, Mask.continuation, Mask.none]
      = [[Mask.none], [Mask.begin, Mask.continuation], [Mask.none]] ∧
    ([[Mask.none], [Mask.begin, Mask.continuation], [Mask.none]] :
        List (List Mask)).length ≠ 2 := by
  constructor
  · rw [iter_consolidate_eq]
    simp [consolidateSpec, List.takeWhile_cons, List.dropWhile_cons]
  · decide

/-- C7 (amended): the consolidated token iterator yields exactly the
maximal contiguous runs in which every token after the first has
`Mask::Continuation` (a run ends whenever the next token's mask is not
Continuation); on masks `[None, Begin, Continuation, None]` it yields
exactly the three groups `[None]`, `[Begin, Continuation]`, `[None]`. -/
theorem c7_consolidated_iterator_runs :
    (∀ {α : Type} (m : α → Mask) (tokens : List α),
      iter_consolidate_tokens m tokens = consolidateSpec m tokens) ∧
    iter_consolidate_tokens (fun x => x)
        [Mask.none, Mask.begin, Mask.continuation, Mask.none]
      = [[Mask.none], [Mask.begin, Mask.continuation], [Mask.none]] := by
  refine ⟨fun m tokens => iter_consolidate_eq m tokens, ?_⟩
  rw [iter_consolidate_eq]
  simp [consolidateSpec, List.takeWhile_cons, List.dropWhile_cons]

/-!  Encoder (`base_tokenizer.rs:453-795`), parameterised over the
trait's abstract methods (`tokenize_to_tokens` and the vocabulary's
`token_to_id`), exactly as the Rust default methods are. -/

/-- `TokensWithOffsets` (`base_tokenizer.rs:417`). -/
structure TokensWithOffsets where
  tokens : List Str
  offsets : List (Option Offset)
  reference_offsets : List (List OffsetSize)
  masks : List Mask

/-- `TokenIdsWithSpecialTokens` (`base_tokenizer.rs:391`). -/
structure TokenIdsWithSpecialTokens where
  token_ids : List Int
  segment_ids : List Int
  special_tokens_mask : List Int
  token_offsets : List (Option Offset)
  reference_offsets : List (List OffsetSize)
  mask : List Mask

/-- `TokenizedInput` (`base_tokenizer.rs:359`). -/
structure TokenizedInput where
  token_ids : List Int
  segment_ids : List Int
  special_tokens_mask : List Int
  overflowing_tokens : List Int
  num_truncated_tokens : Nat
  token_offsets : List (Option Offset)
  reference_offsets : List (List OffsetSize)
  mask : List Mask

/-- A `Tokenizer` trait object: the two abstract methods every impl
supplies (`tokenize_to_tokens`, and `vocab().token_to_id` behind
`convert_tokens_to_ids`); the remaining methods are the trait's
defaults, embedded below. -/
structure TokenizerModel where
  tokenize_to_tokens : Token → List Token
  token_to_id : Str → Int

/-- `Tokenizer::tokenize_with_offsets` (`base_tokenizer.rs:508`):
empty/whitespace-only text gives an empty result (`text.trim()` is
empty iff every char is whitespace); otherwise the whole text is
wrapped as one initial token with offsets `0..char_count` and handed
to `tokenize_to_tokens`, whose output is unzipped per field. -/
def TokenizerModel.tokenize_with_offsets (T : TokenizerModel) (text : Str) :
    TokensWithOffsets :=
  if text.all Char.isWhitespace then
    ⟨[], [], [], []⟩
  else
    let initial_offsets := List.range text.length
    let tokens := T.tokenize_to_tokens (TokenRef.new text initial_offsets)
    { tokens := tokens.map (·.text)
      offsets := tokens.map fun token =>
        if token.reference_offsets ≠ [] then
          some ⟨token.reference_offsets.headD 0,
            token.reference_offsets.getLastD 0 + 1⟩
        else none
      reference_offsets := tokens.map (·.reference_offsets)
      masks := tokens.map (·.mask) }

/-- `Tokenizer::convert_tokens_to_ids`. -/
def TokenizerModel.convert_tokens_to_ids (T : TokenizerModel)
    (tokens : List Str) : List Int :=
  tokens.map T.token_to_id

/-- `Tokenizer::build_input_with_special_tokens` (default trait
method, `base_tokenizer.rs:1158`): plain concatenation, segment id 1
for the second sequence, special-tokens mask all zero. -/
def build_input_with_special_tokens (t1 : TokenIdsWithOffsets)
    (t2 : Option TokenIdsWithOffsets) : TokenIdsWithSpecialTokens :=
  match t2 with
  | some t2v =>
    { token_ids := t1.ids ++ t2v.ids
      segment_ids := List.replicate t1.ids.length 0 ++
        List.replicate t2v.ids.length 1
      special_tokens_mask := List.replicate t1.ids.length 0 ++
        List.replicate t2v.ids.length 0
      token_offsets := t1.offsets ++ t2v.offsets
      reference_offsets := t1.reference_offsets ++ t2v.reference_offsets
      mask := t1.masks ++ t2v.masks }
  | none =>
    { token_ids := t1.ids
      segment_ids := List.replicate t1.ids.length 0
      special_tokens_mask := List.replicate t1.ids.length 0
      token_offsets := t1.offsets
      reference_offsets := t1.reference_offsets
      mask := t1.masks }

/-- `Tokenizer::encode` (`base_tokenizer.rs:709`).  The `.unwrap()` on
the truncation result is modelled as `none` on error. -/
def TokenizerModel.encode (T : TokenizerModel) (text_1 : Str)
    (text_2 : Option Str) (max_len : Nat)
    (truncation_strategy : TruncationStrategy) (stride : Nat) :
    Option TokenizedInput :=
  let tokens := T.tokenize_with_offsets text_1
  let token_ids_1 := T.convert_tokens_to_ids tokens.tokens
  let len_1 := token_ids_1.length
  let token_ids_with_offsets_1 : TokenIdsWithOffsets :=
    ⟨token_ids_1, tokens.offsets, tokens.reference_offsets, tokens.masks⟩
  let pair : Option TokenIdsWithOffsets × Nat :=
    match text_2 with
    | some text =>
      let tokens_2 := T.tokenize_with_offsets text
      let token_ids_2 := T.convert_tokens_to_ids tokens_2.tokens
      (some ⟨token_ids_2, tokens_2.offsets, tokens_2.reference_offsets,
        tokens_2.masks⟩, token_ids_2.length)
    | none => (none, 0)
  let additional_tokens := build_input_with_special_tokens ⟨[], [], [], []⟩
    (if pair.1.isSome then some ⟨[], [], [], []⟩ else none)
  let total_len := len_1 + pair.2 + additional_tokens.token_ids.length
  let num_truncated_tokens :=
    if total_len > max_len then total_len - max_len else 0
  match truncate_sequences token_ids_with_offsets_1 pair.1
    num_truncated_tokens truncation_strategy stride with
  | .error _ => none
  | .ok (t1, t2, overflowing_tokens, _overflowing_offsets) =>
    let merged := build_input_with_special_tokens t1 t2
    some
      { token_ids := merged.token_ids
        segment_ids := merged.segment_ids
        special_tokens_mask := merged.special_tokens_mask
        overflowing_tokens := overflowing_tokens
        num_truncated_tokens := num_truncated_tokens
        token_offsets := merged.token_offsets
        reference_offsets := merged.reference_offsets
        mask := merged.mask }

/-- Single-sequence LongestFirst truncation always succeeds when the
removal fits, keeping the first `len - r` ids. -/
theorem truncate_none_longest_ids (t1 : TokenIdsWithOffsets)
    (r stride : Nat) (h : r ≤ t1.ids.length) :
    ∃ out ov ovo,
      truncate_sequences t1 none r .longest_first stride
        = .ok (out, none, ov, ovo) ∧
      out.ids.length = t1.ids.length - r := by
  by_cases hr : r = 0
  · subst hr
    exact ⟨t1, [], [], by simp [truncate_sequences], by simp⟩
  · have hred : truncate_sequences t1 none r .longest_first stride
        = .ok (⟨(truncate_with_overflow t1.ids t1.offsets
              t1.reference_offsets t1.masks r stride).sequence,
            (truncate_with_overflow t1.ids t1.offsets
              t1.reference_offsets t1.masks r stride).offsets,
            (truncate_with_overflow t1.ids t1.offsets
              t1.reference_offsets t1.masks r stride).original_positions,
            (truncate_with_overflow t1.ids t1.offsets
              t1.reference_offsets t1.masks r stride).mask⟩,
          none,
          (truncate_with_overflow t1.ids t1.offsets
            t1.reference_offsets t1.masks r stride).overflow_tokens,
          (truncate_with_overflow t1.ids t1.offsets
            t1.reference_offsets t1.masks r stride).overflow_offsets) := by
      simp only [truncate_sequences, if_neg hr, if_pos h]
    refine ⟨_, _, _, hred, ?_⟩
    simp only [truncate_with_overflow, List.length_take]
    omega

/-- C2: for every tokenizer, text and maximum length, `encode` with no
second text, LongestFirst and stride 0 returns a record whose
token-id vector has length at most `max_len` and whose
`num_truncated_tokens` plus the final length equals the
pre-truncation token count of the text. -/
theorem c2_encode_respects_max_len (T : TokenizerModel) (text : Str)
    (max_len : Nat) :
    ∃ ti, T.encode text none max_len .longest_first 0 = some ti ∧
      ti.token_ids.length ≤ max_len ∧
      ti.num_truncated_tokens + ti.token_ids.length
        = (T.tokenize_with_offsets text).tokens.length := by
  unfold TokenizerModel.encode
  simp [TokenizerModel.convert_tokens_to_ids]
  rw [show (build_input_with_special_tokens ⟨[], [], [], []⟩
    none).token_ids.length = 0 from rfl]
  simp only [Nat.add_zero]
  obtain ⟨out, ov, ovo, heq, hlen⟩ := truncate_none_longest_ids
    ⟨List.map T.token_to_id (T.tokenize_with_offsets text).tokens,
      (T.tokenize_with_offsets text).offsets,
      (T.tokenize_with_offsets text).reference_offsets,
      (T.tokenize_with_offsets text).masks⟩
    (if max_len < (T.tokenize_with_offsets text).tokens.length then
      (T.tokenize_with_offsets text).tokens.length - max_len else 0) 0
    (by simp only [List.length_map]; split <;> omega)
  rw [heq]
  simp only [List.length_map] at hlen
  refine ⟨_, rfl, ?_, ?_⟩
  · simp only [build_input_with_special_tokens]
    by_cases hcase : max_len < (T.tokenize_with_offsets text).tokens.length
    · rw [if_pos hcase] at hlen
      omega
    · rw [if_neg hcase] at hlen
      omega
  · simp only [build_input_with_special_tokens]
    by_cases hcase : max_len < (T.tokenize_with_offsets text).tokens.length
    · rw [if_pos hcase] at hlen ⊢
      omega
    · rw [if_neg hcase] at hlen ⊢
      omega

/-!  Merge engine with cache (`tokenization_utils.rs:515-621`).  The
`RwLock<HashMap<..>>` cache is modelled as an association list plus
two booleans for the non-blocking `try_read`/`try_write` outcomes;
`BYTES_TO_UNICODE` (in the `constants` module, not under `src/`) and
the UTF-8 byte decomposition of `char` are abstracted as function
parameters `byteMap` and `charBytes` — no claim depends on their
values. -/

/-- `pub type BpeCache = RwLock<HashMap<String, (Vec<String>,
Vec<usize>)>>` — the map contents. -/
abbrev BpeCacheMap := List (Str × (List Str × List Nat))

/-- `bytes_offsets` (`tokenization_utils.rs:515`): for each character,
one entry per UTF-8 byte carrying the character index. -/
def bytes_offsets (charBytes : Char → List Nat) (text : Str) : List Nat :=
  (text.enum.map fun p => List.replicate (charBytes p.2).length p.1).flatten

/-- The byte projection of `split_on_bpe_pairs` (lines 538-552):
with `as_bytes`, every UTF-8 byte is mapped through the byte table and
the reference offsets are expanded per byte; otherwise the token's own
text and offsets are used. -/
def bpeProjected (charBytes : Char → List Nat) (byteMap : Nat → Char)
    (token : Token) (as_bytes : Bool) : Str × List OffsetSize :=
  if as_bytes then
    (((token.text.map charBytes).flatten).map byteMap,
      (bytes_offsets charBytes token.text).map fun pos =>
        token.reference_offsets.getD pos 0)
  else
    (token.text, token.reference_offsets)

/-- The sub-token construction loop of `split_on_bpe_pairs` (lines
556-581 and 595-618, identical in both branches): each piece takes the
next `char_count` reference offsets; the offset spans from the first
to one past the last of those; masks are Begin/Continuation when
there are several pieces, None otherwise.  (Out-of-bounds indexing,
a panic in Rust, is modelled with default 0.) -/
def buildSubTokens (many : Bool) (reference_offsets : List OffsetSize) :
    List (Str × Nat) → Nat → Nat → List Token
  | [], _, _ => []
  | (sub_token, char_count) :: rest, idx, start =>
    { text := sub_token
      offset := { begin_ := reference_offsets.getD start 0
                  end_ := reference_offsets.getD (start + char_count - 1) 0 + 1 }
      reference_offsets := (reference_offsets.drop start).take char_count
      mask :=
        if many then (if idx = 0 then Mask.begin else Mask.continuation)
        else Mask.none } ::
      buildSubTokens many reference_offsets rest (idx + 1) (start + char_count)

/-- `split_on_bpe_pairs` (`tokenization_utils.rs:525`): project the
token, consult the cache under `try_read` (a failed lock or a missing
key is a miss), on a miss run `bpe_function` and insert under
`try_write` (a failed lock skips the insert), and build the sub-tokens
from the pieces and char counts.  Returns the tokens and the updated
cache map. -/
def split_on_bpe_pairs (charBytes : Char → List Nat) (byteMap : Nat → Char)
    (token : Token) (bpe_function : Str → BpePairVocab → List Str × List Nat)
    (bpe_ranks : BpePairVocab) (cache : BpeCacheMap)
    (can_read can_write as_bytes : Bool) : List Token × BpeCacheMap :=
  let projected := bpeProjected charBytes byteMap token as_bytes
  let text := projected.1
  let reference_offsets := projected.2
  match (if can_read then assoc text cache else none) with
  | some cached =>
    (buildSubTokens (decide (1 < cached.1.length)) reference_offsets
      (cached.1.zip cached.2) 0 0, cache)
  | none =>
    let out := bpe_function text bpe_ranks
    let cache' := if can_write then (text, out) :: cache else cache
    (buildSubTokens (decide (1 < out.1.length)) reference_offsets
      (out.1.zip out.2) 0 0, cache')

/-- Reachable cache states: every entry holds exactly the result of
the merge function on its key (the cache is only ever filled with
`bpe_function` results keyed by the projected text). -/
def cacheConsistent (cache : BpeCacheMap)
    (bpe_function : Str → BpePairVocab → List Str × List Nat)
    (bpe_ranks : BpePairVocab) : Prop :=
  ∀ e ∈ cache, bpe_function e.1 bpe_ranks = e.2

/-- Under a consistent cache, the tokens returned by
`split_on_bpe_pairs` are those computed directly from
`bpe_function`, whatever the cache contents and lock outcomes. -/
theorem split_on_bpe_pairs_fst_eq (charBytes : Char → List Nat)
    (byteMap : Nat → Char) (token : Token)
    (bpe_function : Str → BpePairVocab → List Str × List Nat)
    (bpe_ranks : BpePairVocab) (cache : BpeCacheMap)
    (can_read can_write as_bytes : Bool)
    (hc : cacheConsistent cache bpe_function bpe_ranks) :
    (split_on_bpe_pairs charBytes byteMap token bpe_function bpe_ranks cache
      can_read can_write as_bytes).1
      = buildSubTokens
          (decide (1 < (bpe_function
            (bpeProjected charBytes byteMap token as_bytes).1 bpe_ranks).1.length))
          (bpeProjected charBytes byteMap token as_bytes).2
          ((bpe_function (bpeProjected charBytes byteMap token as_bytes).1
              bpe_ranks).1.zip
            (bpe_function (bpeProjected charBytes byteMap token as_bytes).1
              bpe_ranks).2) 0 0 := by
  unfold split_on_bpe_pairs
  simp only
  rcases hr : (if can_read = true then
      assoc (bpeProjected charBytes byteMap token as_bytes).1 cache
    else none) with _ | cached
  · rfl
  · have hmem : ((bpeProjected charBytes byteMap token as_bytes).1, cached)
        ∈ cache := by
      rcases can_read with _ | _
      · simp at hr
      · rw [if_pos rfl] at hr
        exact assoc_mem _ _ _ hr
    have hval := hc _ hmem
    simp only at hval
    rw [← hval]

/-- C4: `split_on_bpe_pairs` returns the same token sequence for a
given pre-token and merge table regardless of cache state (any
reachable, i.e. consistent, cache) and lock availability: cache hit,
cache miss and lock-contention (`try_read`/`try_write` failure) paths
all equal the uncontended empty-cache computation. -/
theorem c4_split_cache_and_locks_transparent (charBytes : Char → List Nat)
    (byteMap : Nat → Char) (token : Token)
    (bpe_function : Str → BpePairVocab → List Str × List Nat)
    (bpe_ranks : BpePairVocab) (cache : BpeCacheMap)
    (can_read can_write as_bytes : Bool)
    (hc : cacheConsistent cache bpe_function bpe_ranks) :
    (split_on_bpe_pairs charBytes byteMap token bpe_function bpe_ranks cache
      can_read can_write as_bytes).1
      = (split_on_bpe_pairs charBytes byteMap token bpe_function bpe_ranks []
          true true as_bytes).1 := by
  rw [split_on_bpe_pairs_fst_eq charBytes byteMap token bpe_function bpe_ranks
      cache can_read can_write as_bytes hc,
    split_on_bpe_pairs_fst_eq charBytes byteMap token bpe_function bpe_ranks
      [] true true as_bytes (fun e he => absurd he (List.not_mem_nil e))]

/-- Witness for C4: a populated consistent cache with contended locks
versus the empty uncontended cache, on a concrete token. -/
theorem c4_split_cache_and_locks_transparent_witness :
    (split_on_bpe_pairs (fun _ => [97]) (fun _ => 'a')
      (TokenRef.new [ 'a' ] (List.range 1))
      (fun t _ => ([t], [t.length])) ⟨[]⟩
      [([ 'a' ], ([[ 'a' ]], [1]))] false false false).1
      = (split_on_bpe_pairs (fun _ => [97]) (fun _ => 'a')
          (TokenRef.new [ 'a' ] (List.range 1))
          (fun t _ => ([t], [t.length])) ⟨[]⟩ [] true true false).1 :=
  c4_split_cache_and_locks_transparent (fun _ => [97]) (fun _ => 'a')
    (TokenRef.new [ 'a' ] (List.range 1)) (fun t _ => ([t], [t.length]))
    ⟨[]⟩ [([ 'a' ], ([[ 'a' ]], [1]))] false false false
    (by intro e he; simp only [List.mem_singleton] at he; subst he; rfl)

/-!  Token invariants (C9). -/

/-- The Token invariant of the spec: one reference offset per
character of the text, and the offset spans from the first reference
offset to one past the last. -/
def TokenWellFormed (t : Token) : Prop :=
  t.reference_offsets.length = t.text.length ∧
  (t.reference_offsets ≠ [] →
    t.offset.begin_ = t.reference_offsets.headD 0 ∧
    t.offset.end_ = t.reference_offsets.getLastD 0 + 1)

/-- `mergePair` preserves the concatenation of the symbols. -/
theorem mergePair_flatten (b1 b2 : Str) :
    ∀ l : List Str, (mergePair b1 b2 l).flatten = l.flatten
  | [] => rfl
  | [x] => by by_cases h : x = b1 <;> simp [mergePair, h]
  | x :: y :: rest => by
    by_cases h1 : x = b1
    · by_cases h2 : y = b2
      · simp [mergePair, h1, h2, mergePair_flatten b1 b2 rest,
          List.append_assoc]
      · simp [mergePair, h1, h2, mergePair_flatten b1 b2 (y :: rest)]
    · simp [mergePair, h1, mergePair_flatten b1 b2 (y :: rest)]

/-- `mergePair` preserves non-emptiness of the symbols. -/
theorem mergePair_ne_nil (b1 b2 : Str) (hb1 : b1 ≠ []) :
    ∀ l : List Str, (∀ p ∈ l, p ≠ []) →
      ∀ p ∈ mergePair b1 b2 l, p ≠ []
  | [], _, p => by simp [mergePair]
  | [x], hall, p => by
    by_cases h : x = b1
    · simp only [mergePair, if_pos h]
      intro hp
      simp only [List.mem_singleton] at hp
      subst hp
      exact hb1
    · simp only [mergePair, if_neg h]
      intro hp
      simp only [List.mem_singleton] at hp
      subst hp
      exact hall _ (by simp)
  | x :: y :: rest, hall, p => by
    have htail : ∀ q ∈ y :: rest, q ≠ [] :=
      fun q hq => hall q (List.mem_cons_of_mem _ hq)
    by_cases h1 : x = b1
    · by_cases h2 : y = b2
      · simp only [mergePair, if_pos h1, if_pos h2]
        intro hp
        rcases List.mem_cons.mp hp with h | h
        · subst h
          simp [hb1]
        · exact mergePair_ne_nil b1 b2 hb1 rest
            (fun q hq => htail q (List.mem_cons_of_mem _ hq)) p h
      · simp only [mergePair, if_pos h1, if_neg h2]
        intro hp
        rcases List.mem_cons.mp hp with h | h
        · subst h
          exact hb1
        · exact mergePair_ne_nil b1 b2 hb1 (y :: rest) htail p h
    · simp only [mergePair, if_neg h1]
      intro hp
      rcases List.mem_cons.mp hp with h | h
      · subst h
        exact hall _ (by simp)
      · exact mergePair_ne_nil b1 b2 hb1 (y :: rest) htail p h

/-- `group_common_pairs` preserves the concatenation and
non-emptiness of the symbols. -/
theorem group_common_pairs_preserves (tokens : List Str)
    (bpe_ranks : BpePairVocab) (h : ∀ p ∈ tokens, p ≠ []) :
    (group_common_pairs tokens bpe_ranks).1.flatten = tokens.flatten ∧
      ∀ p ∈ (group_common_pairs tokens bpe_ranks).1, p ≠ [] := by
  rcases hp : get_pairs tokens with _ | pairs
  · constructor
    · simp [group_common_pairs, hp]
    · simpa [group_common_pairs, hp] using h
  · rcases hmin : minByKey (pairRank bpe_ranks) pairs with _ | bigram
    · constructor
      · simp [group_common_pairs, hp, hmin]
      · simpa [group_common_pairs, hp, hmin] using h
    · by_cases hkey : (byte_pair_to_id bpe_ranks bigram).isNone
      · constructor
        · simp [group_common_pairs, hp, hmin, hkey]
        · simpa [group_common_pairs, hp, hmin, hkey] using h
      · have hmem : bigram ∈ tokens.zip tokens.tail := by
          have := minByKey_mem (pairRank bpe_ranks) pairs bigram hmin
          unfold get_pairs at hp
          rcases tokens with _ | ⟨x, _ | ⟨y, rest⟩⟩ <;> simp_all
        have hb1 : bigram.1 ∈ tokens := (List.of_mem_zip hmem).1
        have hb1ne : bigram.1 ≠ [] := h _ hb1
        have hflat := mergePair_flatten bigram.1 bigram.2 tokens
        have hne := mergePair_ne_nil bigram.1 bigram.2 hb1ne tokens h
        by_cases hone : (mergePair bigram.1 bigram.2 tokens).length = 1
        · constructor
          · simpa [group_common_pairs, hp, hmin, hkey, hone] using hflat
          · intro p hp2
            apply hne
            simpa [group_common_pairs, hp, hmin, hkey, hone] using hp2
        · constructor
          · simpa [group_common_pairs, hp, hmin, hkey, hone] using hflat
          · intro p hp2
            apply hne
            simpa [group_common_pairs, hp, hmin, hkey, hone] using hp2

/-- The merge loop preserves the concatenation and non-emptiness of
the symbols. -/
theorem bpeLoop_preserves (bpe_ranks : BpePairVocab) :
    ∀ tokens : List Str, (∀ p ∈ tokens, p ≠ []) →
      (bpeLoop bpe_ranks tokens).flatten = tokens.flatten ∧
        ∀ p ∈ bpeLoop bpe_ranks tokens, p ≠ [] := by
  intro tokens h
  by_cases hflag : (group_common_pairs tokens bpe_ranks).2 = true
  · rw [bpeLoop_done bpe_ranks tokens hflag]
    exact group_common_pairs_preserves tokens bpe_ranks h
  · have hflag' : (group_common_pairs tokens bpe_ranks).2 = false := by
      simpa using hflag
    rw [bpeLoop_step bpe_ranks tokens hflag']
    have hg := group_common_pairs_preserves tokens bpe_ranks h
    have hlt : (group_common_pairs tokens bpe_ranks).1.length
        < tokens.length := by
      rcases group_common_pairs_shrinks tokens bpe_ranks with hh | hh
      · rw [hflag'] at hh; cases hh
      · exact hh
    have hrec := bpeLoop_preserves bpe_ranks
      (group_common_pairs tokens bpe_ranks).1 hg.2
    exact ⟨hrec.1.trans hg.1, hrec.2⟩
termination_by tokens => tokens.length

/-- Concatenating singleton symbols recovers the string. -/
theorem flatten_singletons :
    ∀ l : Str, (l.map fun c => [c]).flatten = l
  | [] => rfl
  | c :: rest => by simp [flatten_singletons rest]

/-- The pieces returned by `bpe` concatenate to the input string. -/
theorem bpe_flatten (token : Str) (bpe_ranks : BpePairVocab) :
    (bpe token bpe_ranks).1.flatten = token := by
  unfold bpe
  simp only
  rw [(bpeLoop_preserves bpe_ranks (token.map fun c => [c])
    (by intro p hp; rcases List.mem_map.mp hp with ⟨c, _, hc⟩; simp [← hc])).1]
  exact flatten_singletons token

/-- The pieces returned by `bpe` are non-empty. -/
theorem bpe_ne_nil (token : Str) (bpe_ranks : BpePairVocab) :
    ∀ p ∈ (bpe token bpe_ranks).1, p ≠ [] := by
  unfold bpe
  simp only
  exact (bpeLoop_preserves bpe_ranks (token.map fun c => [c])
    (by intro p hp; rcases List.mem_map.mp hp with ⟨c, _, hc⟩; simp [← hc])).2

/-- The char counts returned by `bpe` are the piece lengths. -/
theorem bpe_counts (token : Str) (bpe_ranks : BpePairVocab) :
    (bpe token bpe_ranks).2 = (bpe token bpe_ranks).1.map List.length := rfl

theorem zip_own_lengths :
    ∀ l : List Str, ∀ e ∈ l.zip (l.map List.length),
      e.2 = e.1.length ∧ e.1 ∈ l
  | [], e => by simp
  | x :: rest, e => by
    intro he
    simp only [List.map_cons, List.zip_cons_cons] at he
    rcases List.mem_cons.mp he with h | h
    · subst h
      exact ⟨rfl, by simp⟩
    · have := zip_own_lengths rest e h
      exact ⟨this.1, List.mem_cons_of_mem _ this.2⟩

theorem zip_map_snd :
    ∀ l : List Str,
      ((l.zip (l.map List.length)).map Prod.snd) = l.map List.length
  | [] => rfl
  | x :: rest => by simp [zip_map_snd rest]

theorem slice_headD {γ : Type} (l : List γ) (s c : Nat) (d : γ)
    (hc : 0 < c) (hs : s < l.length) :
    ((l.drop s).take c).headD d = l.getD s d := by
  have hdrop : l.drop s = l[s] :: l.drop (s + 1) :=
    List.drop_eq_getElem_cons hs
  rcases c with _ | c
  · omega
  · rw [hdrop, List.take_succ_cons]
    simp [List.getD_eq_getElem?_getD, List.getElem?_eq_getElem hs]

theorem slice_getLastD {γ : Type} (l : List γ) (s c : Nat) (d : γ)
    (hc : 0 < c) (h : s + c ≤ l.length) :
    ((l.drop s).take c).getLastD d = l.getD (s + c - 1) d := by
  have hlen : ((l.drop s).take c).length = c := by
    simp only [List.length_take, List.length_drop]
    omega
  rw [List.getLastD_eq_getLast?, List.getLast?_eq_getElem?, hlen]
  rw [List.getElem?_take, if_pos (by omega : c - 1 < c)]
  rw [List.getElem?_drop]
  rw [List.getD_eq_getElem?_getD]
  rw [show s + (c - 1) = s + c - 1 from by omega]

/-- Every token built by the sub-token loop satisfies the invariant,
provided the char counts are the piece lengths, the pieces are
non-empty, and the reference offsets cover the pieces. -/
theorem buildSubTokens_wf (many : Bool) (refoffs : List OffsetSize) :
    ∀ (pcs : List (Str × Nat)) (idx start : Nat),
      (∀ e ∈ pcs, e.2 = e.1.length ∧ e.1 ≠ []) →
      start + (pcs.map Prod.snd).sum ≤ refoffs.length →
      ∀ t ∈ buildSubTokens many refoffs pcs idx start, TokenWellFormed t
  | [], idx, start, _, _ => by simp [buildSubTokens]
  | (s, cc) :: rest, idx, start, hall, hb => by
    have hhead := hall (s, cc) (List.mem_cons_self _ _)
    have hcc : cc = s.length := hhead.1
    have hne : s ≠ [] := hhead.2
    have hcpos : 0 < cc := by
      rw [hcc]
      exact List.length_pos.mpr hne
    have hbound : start + cc ≤ refoffs.length := by
      simp only [List.map_cons, List.sum_cons] at hb
      omega
    intro t ht
    simp only [buildSubTokens] at ht
    rcases List.mem_cons.mp ht with h | h
    · subst h
      constructor
      · simp only [List.length_take, List.length_drop]
        omega
      · intro _
        constructor
        · exact (slice_headD refoffs start cc 0 hcpos (by omega)).symm
        · rw [slice_getLastD refoffs start cc 0 hcpos hbound]
    · exact buildSubTokens_wf many refoffs rest (idx + 1) (start + cc)
        (fun e he => hall e (List.mem_cons_of_mem _ he))
        (by simp only [List.map_cons, List.sum_cons] at hb; omega) t h

theorem bytes_offsets_aux (charBytes : Char → List Nat) :
    ∀ (text : Str) (n : Nat),
      ((List.enumFrom n text).map fun p =>
        List.replicate (charBytes p.2).length p.1).flatten.length
        = ((text.map charBytes).flatten).length
  | [], _ => rfl
  | c :: rest, n => by
    simp [List.enumFrom, bytes_offsets_aux charBytes rest (n + 1)]

/-- The expanded byte offsets have one entry per projected byte. -/
theorem bytes_offsets_length (charBytes : Char → List Nat) (text : Str) :
    (bytes_offsets charBytes text).length
      = ((text.map charBytes).flatten).length := by
  unfold bytes_offsets
  rw [show text.enum = List.enumFrom 0 text from rfl]
  exact bytes_offsets_aux charBytes text 0

/-- The projected reference offsets cover the projected text. -/
theorem bpeProjected_len (charBytes : Char → List Nat) (byteMap : Nat → Char)
    (token : Token) (as_bytes : Bool)
    (htok : token.reference_offsets.length = token.text.length) :
    (bpeProjected charBytes byteMap token as_bytes).2.length
      = (bpeProjected charBytes byteMap token as_bytes).1.length := by
  rcases as_bytes with _ | _
  · simpa [bpeProjected] using htok
  · simp [bpeProjected, List.length_map,
      bytes_offsets_length charBytes token.text]
    congr 1
    congr 1
    funext c
    simp

/-- `lowercase` (`tokenization_utils.rs:56`): walk the characters
zipped with their reference offsets, pushing each lowercase expansion
character together with a copy of its position, then recompute the
offset from the first and last reference offsets (0 when absent).
The lowercase expansion of a character is a parameter (Rust's
`char::to_lowercase` iterator). -/
def lowercase (lowerMap : Char → List Char) (token : Token) : Token :=
  let expanded := ((token.text.zip token.reference_offsets).map fun p =>
    (lowerMap p.1).map fun c => (c, p.2)).flatten
  { text := expanded.map Prod.fst
    offset := { begin_ := (expanded.map Prod.snd).headD 0
                end_ := (expanded.map Prod.snd).getLastD 0 + 1 }
    reference_offsets := expanded.map Prod.snd
    mask := token.mask }

/-- C9: tokens produced by the pipeline satisfy the Token invariant:
`reference_offsets` has one entry per character of `text`, and the
offset spans from the first reference offset to one past the last.
This holds for `TokenRef::new` applied to the pipeline's initial
offsets `0..char_count`, for `lowercase` of any token, and for every
sub-token returned by `split_on_bpe_pairs` with the `bpe` merge
function, for any input token satisfying the length invariant and any
reachable (consistent) cache and lock outcomes. -/
theorem c9_token_invariants (text : Str) (lowerMap : Char → List Char)
    (tok0 : Token) (charBytes : Char → List Nat) (byteMap : Nat → Char)
    (token : Token) (bpe_ranks : BpePairVocab) (cache : BpeCacheMap)
    (can_read can_write as_bytes : Bool)
    (htok : token.reference_offsets.length = token.text.length)
    (hcache : cacheConsistent cache bpe bpe_ranks) :
    TokenWellFormed (TokenRef.new text (List.range text.length)) ∧
    TokenWellFormed (lowercase lowerMap tok0) ∧
    ∀ t ∈ (split_on_bpe_pairs charBytes byteMap token bpe bpe_ranks cache
        can_read can_write as_bytes).1, TokenWellFormed t := by
  refine ⟨⟨?_, ?_⟩, ⟨?_, fun _ => ⟨rfl, rfl⟩⟩, ?_⟩
  · simp [TokenRef.new]
  · intro hne
    rcases hn : text.length with _ | m
    · exfalso
      apply hne
      simp [TokenRef.new, hn]
    · constructor
      · simp [TokenRef.new, hn, List.range_succ_eq_map]
      · show (List.range (m + 1)).length = (List.range (m + 1)).getLastD 0 + 1
        rw [List.getLastD_eq_getLast?, List.getLast?_eq_getElem?, List.length_range]
        simp
  · simp [lowercase]
    congr 1
    congr 1
    funext p
    simp
  · rw [split_on_bpe_pairs_fst_eq charBytes byteMap token bpe bpe_ranks cache
      can_read can_write as_bytes hcache]
    have hlen := bpeProjected_len charBytes byteMap token as_bytes htok
    intro t ht
    refine buildSubTokens_wf _ _ _ 0 0 ?_ ?_ t ht
    · intro e he
      rw [bpe_counts] at he
      have h1 := zip_own_lengths _ e he
      exact ⟨h1.1, bpe_ne_nil _ _ _ h1.2⟩
    · rw [bpe_counts, zip_map_snd]
      rw [show ((bpe (bpeProjected charBytes byteMap token as_bytes).1
          bpe_ranks).1.map List.length).sum
        = (bpe (bpeProjected charBytes byteMap token as_bytes).1
            bpe_ranks).1.flatten.length from (List.length_flatten _).symm]
      rw [bpe_flatten]
      omega

/-- C9 witness: concrete instances of the invariant, obtained from
the theorem with every hypothesis discharged. -/
theorem c9_token_invariants_witness :
    TokenWellFormed (TokenRef.new ['a', 'b'] (List.range 2)) ∧
    TokenWellFormed (lowercase (fun c => [c]) (TokenRef.new ['a'] (List.range 1))) := by
  have h := c9_token_invariants ['a', 'b'] (fun c => [c])
    (TokenRef.new ['a'] (List.range 1)) (fun _ => [0]) (fun _ => 'a')
    (TokenRef.new ['a'] (List.range 1)) ⟨[]⟩ [] true true false rfl
    (fun e he => absurd he (List.not_mem_nil e))
  exact ⟨h.1, h.2.1⟩

end Tok
